import Mathlib

/-!
Verification development for the cfg-toolkit repository: a shallow embedding
of the grammar validator (src/logic/cfg_parser.py), the CNF converter
(src/logic/cnf_converter.py), the CYK recognizer and tree reconstructor
(src/logic/cyk.py), the tree simplifier (src/logic/tree_builder.py) and the
set_grammar endpoint (src/app.py), together with theorems settling the
specification claims about them.

Modelling conventions:
- Python strings are Lean `String`; Python `list` is Lean `List`;
  a Python `dict` (insertion ordered, unique keys) is an association list
  `List (key × value)` whose operations touch the first matching key.
- Python while-loops that the source runs to a fixed point are given an
  explicit fuel that provably exceeds the number of possible iterations;
  fuel exhaustion returns the current accumulator.
- Code that can raise is embedded with `Except`/`Option`: `parse_cfg`
  returns `Except String Grammar` (the message text is abbreviated), and
  `convert_to_cnf` returns `none` exactly where the Python raises
  (the `left, right = chain` unpacking in binarization).
- Python string methods (`strip`, `split`, `split("|")`, `startswith`,
  `isupper` on ASCII input) are re-implemented over `Char` lists so that
  every definition reduces inside the kernel.  All inputs appearing in the
  claims are ASCII except the literal epsilon sign, on which the Lean and
  Python character classifications agree.
-/

namespace CFGToolkit

/-- The apostrophe character (used by the variable-name regular expression
and by fresh start-symbol names such as the S-prime produced for a nullable
start symbol). -/
def apos : Char := Char.ofNat 39

/-- The double-quote character (terminal leaves of parse trees are rendered
wrapped in double quotes). -/
def dquote : Char := Char.ofNat 34

/-- Python `str.strip()` on the ASCII inputs of this code base: drop leading
and trailing whitespace. -/
def pyStrip (s : String) : String :=
  String.mk (((s.data.dropWhile Char.isWhitespace).reverse.dropWhile Char.isWhitespace).reverse)

/-- Helper for `pySplitWs`: split a character list at whitespace runs. -/
def splitWsChars : List Char → List Char → List String
  | [], acc => if acc.isEmpty then [] else [String.mk acc.reverse]
  | c :: rest, acc =>
    if c.isWhitespace then
      if acc.isEmpty then splitWsChars rest []
      else String.mk acc.reverse :: splitWsChars rest []
    else splitWsChars rest (c :: acc)

/-- Python `str.split()` with no argument: split on whitespace runs,
dropping empty pieces. -/
def pySplitWs (s : String) : List String :=
  splitWsChars s.data []

/-- Helper for `pySplitPipe`: split a character list at every pipe. -/
def splitPipeChars : List Char → List Char → List String
  | [], acc => [String.mk acc.reverse]
  | c :: rest, acc =>
    if c == '|' then String.mk acc.reverse :: splitPipeChars rest []
    else splitPipeChars rest (c :: acc)

/-- Python `s.split("|")`: split at every pipe character, keeping empty
pieces. -/
def pySplitPipe (s : String) : List String :=
  splitPipeChars s.data []

/-- A rule right-hand side: an ordered list of symbol strings.  The epsilon
rule is the literal singleton list holding the epsilon sign, exactly as in
the Python code. -/
abbrev Rule := List String

/-- A grammar: the Python `dict` from variable name to list of rules,
modelled as an insertion-ordered association list with unique keys. -/
abbrev Grammar := List (String × List Rule)

/-- `grammar.get(A, [])` — rules of a key, defaulting to the empty list. -/
def lookupD (g : Grammar) (a : String) : List Rule :=
  (g.lookup a).getD []

/-- `productions_map[lhs].append(r)` — append one rule to the (single)
entry with the given key, leaving the grammar unchanged if the key is
absent. -/
def appendRuleTo (g : Grammar) (lhs : String) (r : Rule) : Grammar :=
  g.map (fun kv => if kv.1 == lhs then (kv.1, kv.2 ++ [r]) else kv)

/-- `if lhs not in productions_map: productions_map[lhs] = []` — insert a
fresh key with an empty rule list at the end, like a Python dict. -/
def ensureKey (g : Grammar) (lhs : String) : Grammar :=
  if (g.lookup lhs).isSome then g else g ++ [(lhs, [])]

end CFGToolkit

namespace CfgParser

open CFGToolkit

/-- Character class of the variable-name regular expression body,
`[A-Za-z0-9_]`. -/
def isBodyChar (c : Char) : Bool := c.isAlphanum || c == '_'

/-- Check the tail of a candidate variable name: body characters with an
optional single trailing apostrophe, as in the regex
caret A-Z, body star, optional apostrophe, dollar. -/
def checkBody : List Char → Bool
  | [] => true
  | c :: rest => if c == apos then rest.isEmpty else isBodyChar c && checkBody rest

/-- `is_variable` of src/logic/cfg_parser.py: the anchored regular
expression — an uppercase ASCII letter, then letters, digits or
underscores, then an optional trailing apostrophe. -/
def is_variable (token : String) : Bool :=
  match token.data with
  | [] => false
  | c :: rest => c.isUpper && checkBody rest

/-- `_parse_rhs_string` of src/logic/cfg_parser.py: split a right-hand-side
string on pipes into alternatives; an empty alternative becomes the epsilon
rule, any other is whitespace-tokenized. -/
def parseRhsString (rhs : String) : List Rule :=
  let parts := (pySplitPipe rhs).map pyStrip
  parts.map (fun p =>
    if p == "" then ["ε"]
    else
      let symbols := pySplitWs p
      if symbols.isEmpty then ["ε"] else symbols)

/-- A mapping-form right-hand-side entry: the Python code accepts a string
(whitespace tokenized) or a list of symbol strings. -/
inductive MapRhs where
  | str : String → MapRhs
  | toks : List String → MapRhs
deriving DecidableEq

/-- An element of a list-form `rhs` given as a JSON array: either a token
string or an inner rule list.  The Python code inspects these shapes with
isinstance checks. -/
inductive RVal where
  | s : String → RVal
  | l : List String → RVal
deriving DecidableEq

/-- A list-form right-hand side: a pipe-separated alternation string or a
JSON array of `RVal`s. -/
inductive ListRhs where
  | str : String → ListRhs
  | arr : List RVal → ListRhs
deriving DecidableEq

/-- The `productions` argument of `parse_cfg`: either the mapping form
(variable to list of rules) or the list form (entries with `lhs` and
`rhs`).  Entries with further shapes raise in Python and are not needed by
any claim. -/
inductive Productions where
  | mapping : List (String × List MapRhs) → Productions
  | listing : List (String × ListRhs) → Productions
deriving DecidableEq

/-- Tokenize one mapping-form string rhs: `[t for t in rhs.split() if t]`,
empty result meaning epsilon. -/
def mapStrRule (s : String) : Rule :=
  let syms := pySplitWs s
  if syms.isEmpty then ["ε"] else syms

/-- Clean one explicit symbol list:
strip each symbol, drop empties, empty result meaning epsilon. -/
def cleanSyms (r : List String) : Rule :=
  let symbols := (r.map pyStrip).filter (fun s => s != "")
  if symbols.isEmpty then ["ε"] else symbols

/-- The mapping-form half of `parse_cfg`: build `productions_map` from a
dict of lhs to rhs-list (src/logic/cfg_parser.py lines 73-98). -/
def buildMapping : Grammar → List (String × List MapRhs) → Except String Grammar
  | pm, [] => .ok pm
  | pm, (lhs, rhsList) :: rest =>
    if lhs == "" then .error "Invalid LHS value"
    else
      let l := pyStrip lhs
      if l == "" then buildMapping pm rest
      else if !(is_variable l) then .error "Invalid variable format on left-hand side"
      else
        let pm := ensureKey pm l
        let pm := rhsList.foldl (fun pm rhs =>
          match rhs with
          | .str s => appendRuleTo pm l (mapStrRule s)
          | .toks r => appendRuleTo pm l (cleanSyms r)) pm
        buildMapping pm rest

/-- The list-form half of `parse_cfg`: build `productions_map` from a list
of lhs/rhs entries (src/logic/cfg_parser.py lines 100-134). -/
def buildListing : Grammar → List (String × ListRhs) → Except String Grammar
  | pm, [] => .ok pm
  | pm, (lhs, rhs) :: rest =>
    if lhs == "" then .error "Invalid or missing LHS in production"
    else
      let l := pyStrip lhs
      if l == "" then buildListing pm rest
      else if !(is_variable l) then .error "Invalid variable format on left-hand side"
      else
        let pm := ensureKey pm l
        match rhs with
        | .str s => buildListing ((parseRhsString s).foldl (fun pm r => appendRuleTo pm l r) pm) rest
        | .arr v =>
          if v.length > 0 && v.all (fun x => match x with | .l _ => true | .s _ => false) then
            buildListing (v.foldl (fun pm x =>
              match x with
              | .l r => appendRuleTo pm l (cleanSyms r)
              | .s _ => pm) pm) rest
          else
            buildListing (appendRuleTo pm l
              (cleanSyms (v.filterMap (fun x => match x with | .s t => some t | .l _ => none)))) rest

/-- One pass of the usefulness while-loop: a variable becomes useful when
some rule of it has every symbol a terminal, epsilon, or an
already-useful variable (src/logic/cfg_parser.py lines 163-182). -/
def usefulPass (g : Grammar) (useful : List String) : List String × Bool :=
  g.foldl (fun acc kv =>
    if acc.1.contains kv.1 then acc
    else if kv.2.any (fun rule =>
        rule.all (fun sym => sym == "ε" || !(is_variable sym) || acc.1.contains sym)) then
      (acc.1 ++ [kv.1], true)
    else acc) (useful, false)

/-- The usefulness fixed-point loop, with fuel (one pass per unit; the
Python loop runs at most one pass per variable plus one). -/
def computeUseful (g : Grammar) : Nat → List String → List String
  | 0, useful => useful
  | fuel + 1, useful =>
    let p := usefulPass g useful
    if p.2 then computeUseful g fuel p.1 else p.1

/-- Filter the grammar to useful variables and to rules whose variable
symbols are all useful (src/logic/cfg_parser.py lines 188-201).  The Python
iterates the `useful` set in unspecified set order; since the keys it
produces are exactly the useful keys of the grammar, the embedding fixes
grammar insertion order. -/
def buildUseful (pm : Grammar) (useful : List String) : Grammar :=
  (pm.filter (fun kv => useful.contains kv.1)).map (fun kv =>
    (kv.1, kv.2.filter (fun rule =>
      rule.all (fun sym => sym == "ε" || !(is_variable sym) || useful.contains sym))))

/-- The reachability depth-first traversal (src/logic/cfg_parser.py lines
205-214), with fuel bounding the number of stack pops.  The Python pops
from the end of its stack; only the resulting set matters downstream and it
is independent of pop order, so the embedding pops from the head. -/
def computeReach (g : Grammar) : Nat → List String → List String → List String
  | 0, _, reachable => reachable
  | fuel + 1, stack, reachable =>
    match stack with
    | [] => reachable
    | v :: rest =>
      let step := (lookupD g v).foldl (fun acc rule =>
        rule.foldl (fun acc sym =>
          if is_variable sym && !(acc.1.contains sym) && (g.lookup sym).isSome then
            (acc.1 ++ [sym], acc.2 ++ [sym])
          else acc) acc) (reachable, rest)
      computeReach g fuel step.2 step.1

/-- Restrict the grammar to reachable variables (src/logic/cfg_parser.py
lines 220-223); as with `buildUseful` the embedding fixes grammar insertion
order for the unspecified Python set order. -/
def buildReach (g : Grammar) (reach : List String) : Grammar :=
  g.filter (fun kv => reach.contains kv.1)

/-- The right-hand-side validation loop: an error when a symbol other than
the epsilon sign looks like a variable but is not declared
(src/logic/cfg_parser.py lines 150-157). -/
def hasUndeclared (pm : Grammar) (declared : List String) : Bool :=
  pm.any (fun kv => kv.2.any (fun rule => rule.any (fun sym =>
    sym != "ε" && is_variable sym && !(declared.contains sym))))

/-- `parse_cfg` of src/logic/cfg_parser.py: validate the start symbol,
build the productions map, reject undeclared right-hand-side variables,
filter to useful then reachable variables. -/
def parse_cfg (startVariable : String) (productions : Productions) : Except String Grammar :=
  if startVariable == "" then .error "Start variable must be a non-empty string."
  else
    let sv := pyStrip startVariable
    if !(is_variable sv) then .error "Invalid start variable"
    else
      match (match productions with
             | .mapping m => buildMapping [] m
             | .listing l => buildListing [] l) with
      | .error e => .error e
      | .ok pm0 =>
        let pm := pm0.filter (fun kv => kv.1 != "" && !kv.2.isEmpty)
        if pm.isEmpty then .error "No production rules defined. Add at least one rule."
        else if hasUndeclared pm (pm.map Prod.fst) then
          .error "Undeclared variable used on right-hand side"
        else
          let useful := computeUseful pm (pm.length + 1) []
          if !(useful.contains sv) then
            .error "Start symbol cannot generate terminal strings (not useful)."
          else
            let usefulGrammar := buildUseful pm useful
            let reach := computeReach usefulGrammar (usefulGrammar.length + 2) [sv] [sv]
            if !(reach.contains sv) then .error "Start symbol not reachable after filtering."
            else
              let finalGrammar := buildReach usefulGrammar reach
              if (finalGrammar.lookup sv).isNone then
                .error "After filtering, start variable is missing from grammar."
              else .ok finalGrammar

end CfgParser

namespace CnfConverter

open CFGToolkit

/-- `is_variable` of src/logic/cnf_converter.py (also used verbatim in
src/logic/cyk.py): nonempty and first character uppercase.  Python uses
`str.isupper`, which agrees with `Char.isUpper` on the ASCII and
epsilon-sign inputs of this code base. -/
def is_variable (sym : String) : Bool :=
  match sym.data with
  | [] => false
  | c :: _ => c.isUpper

/-- One pass of the nullable while-loop (src/logic/cnf_converter.py lines
76-91): a variable becomes nullable when some rule is the epsilon rule or
has every *variable* symbol already nullable — the generator filters with
`if is_variable(sym)`, so terminal symbols are skipped rather than
blocking. -/
def nullablePass (g : Grammar) (nullable : List String) : List String × Bool :=
  g.foldl (fun acc kv =>
    if acc.1.contains kv.1 then acc
    else if kv.2.any (fun rule =>
        rule == ["ε"] || rule.all (fun sym => !(is_variable sym) || acc.1.contains sym)) then
      (acc.1 ++ [kv.1], true)
    else acc) (nullable, false)

/-- The nullable fixed-point loop with fuel. -/
def computeNullable (g : Grammar) : Nat → List String → List String
  | 0, nullable => nullable
  | fuel + 1, nullable =>
    let p := nullablePass g nullable
    if p.2 then computeNullable g fuel p.1 else p.1

/-- The nullable set computed by `convert_to_cnf` (the loop converges in at
most one pass per variable plus one). -/
def computeNullableSet (g : Grammar) : List String :=
  computeNullable g (g.length + 1) []

/-- Modelled from the spec wording, for comparison with the code: one pass
of "variable A is nullable if it has an Epsilon rule, or a rule all of
whose symbols are nullable variables". -/
def claimNullablePass (g : Grammar) (nullable : List String) : List String × Bool :=
  g.foldl (fun acc kv =>
    if acc.1.contains kv.1 then acc
    else if kv.2.any (fun rule =>
        rule == ["ε"] || rule.all (fun sym => is_variable sym && acc.1.contains sym)) then
      (acc.1 ++ [kv.1], true)
    else acc) (nullable, false)

/-- Modelled from the spec wording: iterate `claimNullablePass` to its
least fixed point from the empty set. -/
def claimNullable (g : Grammar) : Nat → List String → List String
  | 0, nullable => nullable
  | fuel + 1, nullable =>
    let p := claimNullablePass g nullable
    if p.2 then claimNullable g fuel p.1 else p.1

/-- Modelled from the spec wording: the least fixed point of the claimed
nullable rule, reached from the empty set. -/
def claimNullableSet (g : Grammar) : List String :=
  claimNullable g (g.length + 1) []

/-- The keep-or-drop subset enumeration of epsilon elimination
(src/logic/cnf_converter.py lines 107-119): every symbol is kept, and a
nullable variable symbol may additionally be dropped. -/
def epsSubsets (nullable : List String) (rule : Rule) : List Rule :=
  rule.foldl (fun subsets sym =>
    subsets.flatMap (fun s =>
      if is_variable sym && nullable.contains sym then [s ++ [sym], s]
      else [s ++ [sym]])) [[]]

/-- Epsilon elimination (src/logic/cnf_converter.py lines 97-128): raw
epsilon rules are dropped, every non-empty keep-or-drop subset of each
remaining rule is added once. -/
def elimEpsilon (g : Grammar) (nullable : List String) : Grammar :=
  let base : Grammar := g.map (fun kv => (kv.1, ([] : List Rule)))
  g.foldl (fun ng kv =>
    kv.2.foldl (fun ng rule =>
      if rule == ["ε"] then ng
      else (epsSubsets nullable rule).foldl (fun ng s =>
        if s.isEmpty then ng
        else if (lookupD ng kv.1).contains s then ng
        else appendRuleTo ng kv.1 s) ng) ng) base

/-- The while-loop disambiguating the new start name by appending
apostrophes until it is not a grammar key (src/logic/cnf_converter.py lines
136-137). -/
def freshStartName (g : Grammar) : Nat → String → String
  | 0, cand => cand
  | fuel + 1, cand =>
    if (g.lookup cand).isSome then freshStartName g fuel (cand ++ String.mk [apos])
    else cand

/-- Introduce the new start variable with rules to the old start and to
epsilon when the original start is nullable (src/logic/cnf_converter.py
lines 133-140); returns the grammar and the current start. -/
def addStart (g : Grammar) (startVar : String) (nullable : List String) : Grammar × String :=
  if nullable.contains startVar then
    let sNew := freshStartName g (g.length + 1) (startVar ++ String.mk [apos])
    (g ++ [(sNew, [[startVar], ["ε"]])], sNew)
  else (g, startVar)

/-- `is_unit` of src/logic/cnf_converter.py: a rule of exactly one variable
symbol. -/
def is_unit (rule : Rule) : Bool :=
  match rule with
  | [s] => is_variable s
  | _ => false

/-- The second disjunct of the unit-elimination copy condition:
`len(rB) == 1 and not is_variable(rB[0])`. -/
def isSingleTerminal (rule : Rule) : Bool :=
  match rule with
  | [s] => !(is_variable s)
  | _ => false

/-- `new_prod[A].remove(rule)` guarded by membership: erase the first
occurrence from the entry with the given key. -/
def eraseRuleFrom (g : Grammar) (lhs : String) (r : Rule) : Grammar :=
  g.map (fun kv => if kv.1 == lhs then (kv.1, kv.2.erase r) else kv)

/-- One rule of B considered by the copy step of unit elimination: a rule
satisfying `not is_unit(rB) or (len(rB) == 1 and not is_variable(rB[0]))`
is appended to A unless already present. -/
def copyStepRule (a : String) (acc : Grammar × Bool) (rB : Rule) : Grammar × Bool :=
  if !(is_unit rB) || isSingleTerminal rB then
    if (lookupD acc.1 a).contains rB then acc
    else (appendRuleTo acc.1 a rB, true)
  else acc

/-- The copy step of one unit rule `A -> B`: bring every qualifying rule of
B into A, deduplicated (src/logic/cnf_converter.py lines 159-164). -/
def copyRulesOfB (g : Grammar) (np : Grammar × Bool) (a b : String) : Grammar × Bool :=
  (lookupD g b).foldl (copyStepRule a) np

/-- The body of the unit-elimination pass for one rule occurrence of the
variable `a`: unit rules `a -> b` with b distinct from a trigger the copy
step and their own removal; every other rule is left alone. -/
def unitStepRule (g : Grammar) (a : String) (acc : Grammar × Bool) (rule : Rule) :
    Grammar × Bool :=
  match rule with
  | [b] =>
    if is_variable b then
      if b == a then acc
      else
        let acc := copyRulesOfB g acc a b
        if (lookupD acc.1 a).contains rule then (eraseRuleFrom acc.1 a rule, true)
        else acc
    else acc
  | _ => acc

/-- One pass of the unit-production elimination while-loop
(src/logic/cnf_converter.py lines 148-171): for every unit rule `A -> B`
with B distinct from A, copy B's qualifying rules into A and remove
`A -> B`; returns the new productions and the changed flag. -/
def unitPass (g : Grammar) : Grammar × Bool :=
  g.foldl (fun acc kv => kv.2.foldl (unitStepRule g kv.1) acc) (g, false)

/-- The unit-elimination fixed-point loop with fuel. -/
def unitElim (g : Grammar) : Nat → Grammar
  | 0 => g
  | fuel + 1 =>
    let p := unitPass g
    if p.2 then unitElim p.1 fuel else p.1

/-- Total number of rule occurrences of a grammar, used to bound the
unit-elimination fuel. -/
def totalRules (g : Grammar) : Nat :=
  g.foldl (fun n kv => n + kv.2.length) 0

/-- A fuel that exceeds the number of passes the unit-elimination loop can
make: each changing pass appends a copied rule (at most once per variable
and distinct rule) or erases a unit-rule occurrence (never re-added, since
copied rules are never unit rules). -/
def unitFuel (g : Grammar) : Nat :=
  (g.length + 1) * (totalRules g + 1) + totalRules g + 1

/-- The mutable state of terminal lifting and binarization: the fresh
variable counter, the running set of all known names, the two translation
maps, and the `final` grammar being assembled. -/
structure ConvSt where
  counter : Nat
  allVars : List String
  termMap : List (String × String)
  nontermMap : List (String × String)
  final : Grammar
deriving DecidableEq

/-- `fresh_var` of src/logic/cnf_converter.py: names X1, X2, X3 … from the
running counter, skipping names already known; fuel bounds the skips (at
most one per known name). -/
def freshVar : ConvSt → Nat → String × ConvSt
  | st, 0 => ("X" ++ Nat.repr st.counter, { st with counter := st.counter + 1 })
  | st, fuel + 1 =>
    let v := "X" ++ Nat.repr st.counter
    let st := { st with counter := st.counter + 1 }
    if st.allVars.contains v then freshVar st fuel
    else (v, { st with allVars := st.allVars ++ [v] })

/-- `get_term_var` of src/logic/cnf_converter.py: the synthetic wrapper
variable of a terminal, created and registered in both translation maps on
first use. -/
def getTermVar (st : ConvSt) (t : String) : String × ConvSt :=
  match st.termMap.lookup t with
  | some v => (v, st)
  | none =>
    let p := freshVar st (st.allVars.length + 1)
    (p.1, { p.2 with termMap := p.2.termMap ++ [(t, p.1)],
                     nontermMap := p.2.nontermMap ++ [(p.1, t)] })

/-- `final[A] = []`: assign an empty rule list to a key, inserting it at
the end when absent. -/
def setKeyEmpty (f : Grammar) (a : String) : Grammar :=
  if (f.lookup a).isSome then f.map (fun kv => if kv.1 == a then (kv.1, ([] : List Rule)) else kv)
  else f ++ [(a, [])]

/-- `final.setdefault(current, []).append(r)`. -/
def setdefaultAppend (f : Grammar) (a : String) (r : Rule) : Grammar :=
  if (f.lookup a).isSome then appendRuleTo f a r else f ++ [(a, [r])]

/-- `final.setdefault(new_var, [])`. -/
def setdefault (f : Grammar) (a : String) : Grammar :=
  if (f.lookup a).isSome then f else f ++ [(a, [])]

/-- The binarization chain loop for a rule of length at least three
(src/logic/cnf_converter.py lines 213-237): peel the leftmost symbol
(lifting terminals), pair it with a fresh chain variable, and finish with
the last two symbols.  A chain that reaches the final unpacking with fewer
than two symbols models the Python `left, right = chain` ValueError and
yields `none`. -/
def binChain : ConvSt → String → List String → Option ConvSt
  | st, current, a :: b :: c :: rest =>
    let p := if is_variable a then (a, st) else getTermVar st a
    let q := freshVar p.2 (p.2.allVars.length + 1)
    let st := { q.2 with final := setdefault (setdefaultAppend q.2.final current [p.1, q.1]) q.1 }
    binChain st q.1 (b :: c :: rest)
  | st, current, [l, r] =>
    let p := if is_variable l then (l, st) else getTermVar st l
    let q := if is_variable r then (r, p.2) else getTermVar p.2 r
    some { q.2 with final := setdefaultAppend q.2.final current [p.1, q.1] }
  | _, _, _ => none

/-- Binarization of the rules of one variable (src/logic/cnf_converter.py
lines 191-237): a single terminal is kept, a two-symbol rule has its
terminals lifted, anything else goes through the chain loop. -/
def binRule (st : ConvSt) (a : String) (rule : Rule) : Option ConvSt :=
  match rule with
  | [t] =>
    if !(is_variable t) then some { st with final := appendRuleTo st.final a [t] }
    else binChain st a rule
  | [s1, s2] =>
    let p := if is_variable s1 then (s1, st) else getTermVar st s1
    let q := if is_variable s2 then (s2, p.2) else getTermVar p.2 s2
    some { q.2 with final := appendRuleTo q.2.final a [p.1, q.1] }
  | _ => binChain st a rule

/-- Fold `binRule` over a rule list, propagating the unpacking failure. -/
def binRules : ConvSt → String → List Rule → Option ConvSt
  | st, _, [] => some st
  | st, a, r :: rs =>
    match binRule st a r with
    | none => none
    | some st => binRules st a rs

/-- The main binarization loop over the grammar: `final[A] = []`, then each
rule of A is processed. -/
def binarizeGo : ConvSt → Grammar → Option ConvSt
  | st, [] => some st
  | st, (a, rules) :: rest =>
    match binRules { st with final := setKeyEmpty st.final a } a rules with
    | none => none
    | some st => binarizeGo st rest

/-- Step 6 (src/logic/cnf_converter.py lines 242-245): add the wrapper rule
`X_t -> t` for every entry of `nonterm_map`. -/
def addWrapperRules (st : ConvSt) : Grammar :=
  st.nontermMap.foldl (fun f vt =>
    appendRuleTo (setdefault f vt.1) vt.1 [vt.2]) st.final

/-- The result dictionary of `convert_to_cnf`, whose keys are `grammar`,
`start_var`, `term_map` and `nonterm_map`. -/
structure ConvResult where
  grammar : Grammar
  start_var : String
  term_map : List (String × String)
  nonterm_map : List (String × String)
deriving DecidableEq

/-- `convert_to_cnf` of src/logic/cnf_converter.py: nullable computation,
epsilon elimination, new start symbol, unit elimination, terminal lifting
with binarization, wrapper closure, and removal of empty rule lists.
Returns `none` exactly where the Python raises (the chain unpacking). -/
def convert_to_cnf (g : Grammar) (startVar : String) : Option ConvResult :=
  let allVars := g.map Prod.fst
  let nullable := computeNullableSet g
  let g1 := elimEpsilon g nullable
  let p := addStart g1 startVar nullable
  let allVars := if p.2 == startVar then allVars else allVars ++ [p.2]
  let g3 := unitElim p.1 (unitFuel p.1)
  match binarizeGo ⟨1, allVars, [], [], []⟩ g3 with
  | none => none
  | some st =>
    let final := (addWrapperRules st).filter (fun kv => !kv.2.isEmpty)
    some ⟨final, p.2, st.termMap, st.nontermMap⟩

/-- A value of the Python result dictionary of `convert_to_cnf`. -/
inductive ConvField where
  | gr : Grammar → ConvField
  | st : String → ConvField
  | mp : List (String × String) → ConvField
deriving DecidableEq

/-- Keyed access into the result dictionary of `convert_to_cnf`: the dict
literal at src/logic/cnf_converter.py lines 250-255 holds exactly the keys
`grammar`, `start_var`, `term_map` and `nonterm_map`; any other key raises
KeyError, modelled by `none`. -/
def convResultGet (r : ConvResult) (k : String) : Option ConvField :=
  if k == "grammar" then some (.gr r.grammar)
  else if k == "start_var" then some (.st r.start_var)
  else if k == "term_map" then some (.mp r.term_map)
  else if k == "nonterm_map" then some (.mp r.nonterm_map)
  else none

end CnfConverter

namespace Cyk

open CFGToolkit CnfConverter

/-- A CYK table entry (src/logic/cyk.py): `[Variable, terminal]` for a
diagonal match or `[Variable, split_k, left_entry, right_entry]` for a
combined match. -/
inductive Entry where
  | term : String → String → Entry
  | split : String → Nat → Entry → Entry → Entry
deriving DecidableEq

/-- `entry[0]`: the recognized variable of an entry. -/
def Entry.var : Entry → String
  | .term a _ => a
  | .split a _ _ _ => a

/-- One rule of the diagonal initialization: append `[A, tok]` when the
rule is the unary rule for the current token. -/
def diagStepRule (key tok : String) (cell : List Entry) (rule : Rule) : List Entry :=
  match rule with
  | [t] => if t == tok then cell ++ [.term key tok] else cell
  | _ => cell

/-- The diagonal cell `table[i][i]` (src/logic/cyk.py lines 54-60): one
entry `[A, tok]` per unary rule `A -> tokens[i]`, in grammar order. -/
def diagCell (cnf : Grammar) (tokens : List String) (i : Nat) : List Entry :=
  let tok := tokens.getD i ""
  cnf.foldl (fun cell kv => kv.2.foldl (diagStepRule kv.1 tok) cell) []

/-- One rule of the combination step at split k: a binary rule `key -> b c`
combines the first b-entry of the left cell with the first c-entry of the
right cell, unless `key` is already present in the accumulating cell. -/
def combStepRule (k : Nat) (leftCell rightCell : List Entry) (key : String)
    (acc : List Entry) (rule : Rule) : List Entry :=
  match rule with
  | [b, c] =>
    match leftCell.filter (fun e => e.var == b) with
    | [] => acc
    | bEnt :: _ =>
      match rightCell.filter (fun e => e.var == c) with
      | [] => acc
      | cEnt :: _ =>
        if acc.any (fun e => e.var == key) then acc
        else acc ++ [.split key k bEnt cEnt]
  | _ => acc

/-- The combination step building `table[i][j]` for a span of length at
least two (src/logic/cyk.py lines 65-100), reading smaller spans through
the `cells` function: for every split point k upward, every rule
`A -> B C` in grammar order, the first B-entry of the left cell and the
first C-entry of the right cell combine — unless A is already present. -/
def combineCell (cnf : Grammar) (cells : Nat → Nat → List Entry) (i j : Nat) : List Entry :=
  (List.range' i (j - i)).foldl (fun acc k =>
    let leftCell := cells i k
    let rightCell := cells (k + 1) j
    if leftCell.isEmpty || rightCell.isEmpty then acc
    else cnf.foldl (fun acc kv => kv.2.foldl (combStepRule k leftCell rightCell kv.1) acc) acc) []

/-- The cell contents of the CYK table, by recursion on a fuel that bounds
the span length: the Python fills cells in increasing span length, so cell
`[i][j]` only reads finished strictly smaller spans. -/
def cellGo (cnf : Grammar) (tokens : List String) : Nat → Nat → Nat → List Entry
  | fuel, i, j =>
    if i == j then diagCell cnf tokens i
    else if j < i then []
    else
      match fuel with
      | 0 => []
      | fuel + 1 => combineCell cnf (fun a b => cellGo cnf tokens fuel a b) i j

/-- `table[i][j]` of the finished CYK table: the span length is sufficient
fuel. -/
def cellAt (cnf : Grammar) (tokens : List String) (i j : Nat) : List Entry :=
  cellGo cnf tokens (j - i) i j

/-- The success flag of `run_cyk` (src/logic/cyk.py lines 42-110): false on
an empty token sequence, otherwise whether the start variable is present in
the top cell `table[0][n-1]`.  The table component of the Python result is
`cellAt`. -/
def run_cyk (cnf : Grammar) (startVar : String) (tokens : List String) : Bool :=
  if tokens.length == 0 then false
  else (cellAt cnf tokens 0 (tokens.length - 1)).any (fun e => e.var == startVar)

/-- A parse-tree node as the Python dict: `mkLeaf` is a dict holding only a
`name`, `mkNode` additionally holds a (possibly empty) `children` list. -/
inductive PTree where
  | mkLeaf : String → PTree
  | mkNode : String → List PTree → PTree

/-- The `name` of a node. -/
def PTree.name : PTree → String
  | .mkLeaf n => n
  | .mkNode n _ => n

/-- Python `child["name"].startswith("X")`: the first character is an
uppercase X. -/
def startsWithX (s : String) : Bool :=
  match s.data with
  | [] => false
  | c :: _ => c == 'X'

/-- The terminal-leaf rendering `f-string quote terminal quote`. -/
def quote (t : String) : String :=
  String.mk [dquote] ++ t ++ String.mk [dquote]

/-- Strip the quote rendering from a leaf label: drop the first and last
characters. -/
def unquote (s : String) : String :=
  String.mk (s.data.drop 1).dropLast

/-- `append_child` of `reconstruct_tree` (src/logic/cyk.py lines 156-163):
a child whose name starts with X and is not a key of `nonterm_map` has its
children spliced in (nothing is appended when it has no `children` key);
any other child is appended intact. -/
def appendChild (nontermMap : List (String × String)) (children : List PTree)
    (child : PTree) : List PTree :=
  if startsWithX child.name && (nontermMap.lookup child.name).isNone then
    match child with
    | .mkNode _ cs => children ++ cs
    | .mkLeaf _ => children
  else children ++ [child]

/-- `reconstruct_tree` of src/logic/cyk.py: look up the first entry for the
requested variable (an error-labelled leaf when absent), render terminal
evidence directly (suppressing terminal-wrapper variables), and recurse on
binary evidence, splicing synthetic binarization children.  The fuel bounds
the recursion depth; span length is always sufficient on tables produced by
`run_cyk`. -/
def reconstruct_tree (cells : Nat → Nat → List Entry)
    (nontermMap : List (String × String)) : Nat → Nat → Nat → String → PTree
  | fuel, i, j, varName =>
    match (cells i j).filter (fun e => e.var == varName) with
    | [] => .mkLeaf ("ERROR:" ++ varName)
    | entry :: _ =>
      match entry with
      | .term a tok =>
        match nontermMap.lookup a with
        | some t => .mkLeaf (quote t)
        | none => .mkNode a [.mkLeaf (quote tok)]
      | .split a k lEnt rEnt =>
        match fuel with
        | 0 => .mkLeaf ("ERROR:" ++ varName)
        | fuel + 1 =>
          let leftChild := reconstruct_tree cells nontermMap fuel i k lEnt.var
          let rightChild := reconstruct_tree cells nontermMap fuel (k + 1) j rEnt.var
          .mkNode a (appendChild nontermMap (appendChild nontermMap [] leftChild) rightChild)

end Cyk

namespace TreeBuilder

open Cyk

mutual

/-- `flatten_tree` of src/logic/tree_builder.py on tree nodes: a node with
a missing or empty `children` list becomes a bare leaf, otherwise children
are flattened recursively.  (The Python None/str branches cannot receive a
tree node.) -/
def flatten_tree : PTree → PTree
  | .mkLeaf n => .mkLeaf n
  | .mkNode n cs =>
    match cs with
    | [] => .mkLeaf n
    | _ => .mkNode n (flattenList cs)

/-- Children of `flatten_tree`. -/
def flattenList : List PTree → List PTree
  | [] => []
  | c :: cs => flatten_tree c :: flattenList cs

end

mutual

/-- The leaf labels of a tree in left-to-right order: a node without
children (or displaying none) is a leaf carrying its label. -/
def leafLabels : PTree → List String
  | .mkLeaf n => [n]
  | .mkNode n cs =>
    match cs with
    | [] => [n]
    | _ => leafLabelsList cs

/-- Leaf labels of a child list. -/
def leafLabelsList : List PTree → List String
  | [] => []
  | c :: cs => leafLabels c ++ leafLabelsList cs

end

end TreeBuilder

namespace App

open CFGToolkit CfgParser CnfConverter

/-- The five module-level globals of src/app.py holding the currently
active grammar. -/
structure AppState where
  originalCfg : Option Grammar
  cnf : Option Grammar
  start : Option String
  termMap : Option (List (String × String))
  nontermMap : Option (List (String × String))
deriving DecidableEq

/-- The JSON response of `set_grammar`: the success flag and message. -/
structure SetGrammarResponse where
  success : Bool
  message : String
deriving DecidableEq

/-- `set_grammar` of src/app.py (lines 32-63): parse the CFG, convert to
CNF, then assign the five globals in source order inside the try block.
The read of `cnf_result["start"]` — the converter returns the key
`start_var` — raises KeyError after the first two assignments; the except
clause turns any exception into a failure response, keeping whatever state
was already assigned. -/
def set_grammar (st : AppState) (startRaw : String) (productions : Productions) :
    AppState × SetGrammarResponse :=
  let startVar := pyStrip startRaw
  match parse_cfg startVar productions with
  | .error e => (st, ⟨false, "Grammar Error: " ++ e⟩)
  | .ok originalCfg =>
    match convert_to_cnf originalCfg startVar with
    | none => (st, ⟨false, "Grammar Error: not enough values to unpack"⟩)
    | some cnfResult =>
      let st := { st with originalCfg := some originalCfg }
      let st := match convResultGet cnfResult "grammar" with
        | some (.gr g) => { st with cnf := some g }
        | _ => st
      match convResultGet cnfResult "start" with
      | none => (st, ⟨false, "Grammar Error: KeyError start"⟩)
      | some f =>
        let st := match f with
          | .st s => { st with start := some s }
          | _ => st
        let st := match convResultGet cnfResult "term_map" with
          | some (.mp m) => { st with termMap := some m }
          | _ => st
        let st := match convResultGet cnfResult "nonterm_map" with
          | some (.mp m) => { st with nontermMap := some m }
          | _ => st
        (st, ⟨true, "Grammar successfully parsed and converted to CNF."⟩)

end App

namespace Cyk

open CFGToolkit

/-- The candidate a single grammar rule offers for the cell `[i,j]` at
split k: a binary rule whose two variables are present in the left and
right cells yields the combined entry built from the first matching entry
of each cell. -/
def candOfRule (k : Nat) (leftCell rightCell : List Entry) (key : String)
    (rule : Rule) : Option Entry :=
  match rule with
  | [b, c] =>
    match leftCell.filter (fun e => e.var == b) with
    | [] => none
    | bEnt :: _ =>
      match rightCell.filter (fun e => e.var == c) with
      | [] => none
      | cEnt :: _ => some (.split key k bEnt cEnt)
  | _ => none

/-- The ordered candidate list for a variable at span `[i,j]`, following
the enumeration order of the combination loop: split points k from i
upward and, within a split, the rules of the variable in grammar
declaration order.  The first element (when any) is the single entry the
single-parse policy records. -/
def candidatesFor (cnf : Grammar) (cells : Nat → Nat → List Entry) (i j : Nat)
    (a : String) : List Entry :=
  (List.range' i (j - i)).flatMap (fun k =>
    (lookupD cnf a).filterMap (candOfRule k (cells i k) (cells (k + 1) j) a))

/-- The contribution of one reconstructed subtree to its parent's child
list, as the amended claim describes `append_child`: a subtree whose root
label starts with X and is not a key of `nonterm_map` contributes its
children (nothing if it has no `children` key); any other subtree is
appended intact. -/
def spliceContrib (nontermMap : List (String × String)) (t : PTree) : List PTree :=
  if startsWithX t.name && (nontermMap.lookup t.name).isNone then
    match t with
    | .mkNode _ cs => cs
    | .mkLeaf _ => []
  else [t]

/-- The token span `tokens[i..j]` covered by the cell `[i,j]`. -/
def spanToks (tokens : List String) (i j : Nat) : List String :=
  (tokens.drop i).take (j - i + 1)

end Cyk

namespace Cyk

open CFGToolkit

/-- Well-formedness of a CYK table entry at span `[i,j]`: terminal
evidence lives on the diagonal, carries the token at its position and
stems from a unary rule of its variable; binary evidence points at
entries of the two sub-span cells of its recorded split. -/
def EntryWF (cnf : Grammar) (tokens : List String) (i j : Nat) : Entry → Prop
  | .term a tok => i = j ∧ tok = tokens.getD i "" ∧ ∃ rs, (a, rs) ∈ cnf ∧ [tok] ∈ rs
  | .split _ k b c => i ≤ k ∧ k < j ∧ b ∈ cellAt cnf tokens i k ∧ c ∈ cellAt cnf tokens (k + 1) j

end Cyk

namespace App

open CFGToolkit

/-- A non-trivial previously active grammar state, used to exhibit the
partial update performed by a failing `set_grammar` request. -/
def priorState : AppState :=
  ⟨some [("Old", [["x"]])], some [("OldC", [["x"]])], some "Old", some [], some []⟩

end App

open CFGToolkit

/-- C1: the claim asserts that `convert_to_cnf` is total on every
validator output, in particular on a grammar with the degenerate self-unit
rule S -> S alongside S -> a.  In fact the validator accepts
`S -> S | a` unchanged, unit elimination skips the rule S -> S without
removing it, and binarization then reaches `left, right = chain` with the
one-symbol chain `[S]`, raising ValueError — modelled by `none`.  The code
crashes where the claim (and the spec's no-error-path contract) requires
normal termination. -/
theorem c1_cnf_conversion_crashes_on_self_unit :
    CfgParser.parse_cfg "S" (.listing [("S", .str "S | a")]) = .ok [("S", [["S"], ["a"]])]
    ∧ CnfConverter.convert_to_cnf [("S", [["S"], ["a"]])] "S" = none :=
  ⟨rfl, rfl⟩

/-- C2: the claim asserts the nullable set is the least fixed point of
"epsilon rule, or a rule all of whose symbols are nullable variables", so
that S is not nullable in the grammar S -> a.  The code's generator
`all(sym in nullable for sym in rule if is_variable(sym))` skips terminal
symbols instead of letting them block, so the all-terminal rule `a` is
vacuously satisfied: the code computes nullable = {S}, while the claimed
least fixed point is empty, and a fresh start variable S-prime is
introduced. -/
theorem c2_nullable_not_least_fixed_point :
    CnfConverter.computeNullableSet [("S", [["a"]])] = ["S"]
    ∧ CnfConverter.claimNullableSet [("S", [["a"]])] = []
    ∧ (CnfConverter.convert_to_cnf [("S", [["a"]])] "S").map CnfConverter.ConvResult.start_var
        = some ("S" ++ String.mk [apos]) :=
  ⟨rfl, rfl, rfl⟩

/-- C3: the claim allows an Epsilon rule only on the fresh start variable
and only when the original start can derive the empty string.  On the
grammar S -> a, whose start derives no empty string (its claimed nullable
least fixed point is empty), the converter still returns a grammar whose
fresh start S-prime carries the epsilon rule — a consequence of the
nullable-computation slip exhibited for C2.  The grammar-shape part of the
claim is not at issue here: the violated conjunct is the "only when the
original start derives the empty string" condition. -/
theorem c3_epsilon_rule_without_nullable_start :
    CnfConverter.convert_to_cnf [("S", [["a"]])] "S"
      = some ⟨[("S", [["a"]]), ("S" ++ String.mk [apos], [["ε"], ["a"]])],
              "S" ++ String.mk [apos], [], []⟩
    ∧ (["ε"] : Rule) ∈ lookupD [("S", [["a"]]), ("S" ++ String.mk [apos], [["ε"], ["a"]])]
        ("S" ++ String.mk [apos])
    ∧ CnfConverter.claimNullableSet [("S", [["a"]])] = [] :=
  ⟨rfl, by decide, rfl⟩

/-- C4: the claim asserts that a failing `set_grammar` request leaves all
five global state pieces exactly as they were.  On a perfectly valid
request (start S, production S -> a) the handler parses and converts
successfully, assigns `GLOBAL_ORIGINAL_CFG` and `GLOBAL_CNF`, and then
reads `cnf_result["start"]` — but `convert_to_cnf` returns the key
`start_var`, so a KeyError is raised and caught: the response reports
failure while the first two globals hold the new grammar and the other
three still hold the previous one. -/
theorem c4_set_grammar_partial_update :
    (App.set_grammar App.priorState "S" (.listing [("S", .str "a")])).2.success = false
    ∧ (App.set_grammar App.priorState "S" (.listing [("S", .str "a")])).1
       = { App.priorState with
             originalCfg := some [("S", [["a"]])],
             cnf := some [("S", [["a"]]), ("S" ++ String.mk [apos], [["ε"], ["a"]])] } :=
  ⟨rfl, rfl⟩

/-- C9, counterexample: the claim asserts that no two identical rules
appear under the same key, with `a | a` producing the rule `a` only once.
The parser never deduplicates: `a | a` yields the rule `["a"]` twice under
S, surviving the usefulness and reachability filters into the returned
grammar. -/
theorem c9_duplicate_rule_counterexample :
    CfgParser.parse_cfg "S" (.listing [("S", .str "a | a")]) = .ok [("S", [["a"], ["a"]])]
    ∧ (lookupD [("S", [["a"], ["a"]])] "S").count ["a"] = 2 :=
  ⟨rfl, rfl⟩

/-- C10: a right-hand-side alternative mixing the literal epsilon sign
with other symbols parses without error and keeps the sign as an ordinary
symbol in place; the CNF converter's `is_variable` classifies it as a
terminal (its first character is not an uppercase letter), and the full
conversion lifts it into a terminal-wrapper variable like any other
terminal. -/
theorem c10_epsilon_kept_as_ordinary_symbol :
    CfgParser.parse_cfg "S" (.listing [("S", .str "a ε b")]) = .ok [("S", [["a", "ε", "b"]])]
    ∧ CnfConverter.is_variable "ε" = false
    ∧ (CnfConverter.convert_to_cnf [("S", [["a", "ε", "b"]])] "S").bind
        (fun r => r.term_map.lookup "ε") = some "X3" :=
  ⟨rfl, rfl, rfl⟩

/-- C5, counterexample: the claim asserts that pure-terminal unit rules of
B (rules of exactly one terminal) are not copied into A.  On the grammar
A -> B, B -> b, one elimination pass copies the pure-terminal rule `b`
into A (the code's copy condition `not is_unit(rB) or (len(rB) == 1 and
not is_variable(rB[0]))` accepts every non-single-variable rule, single
terminals included) and removes A -> B. -/
theorem c5_pure_terminal_unit_copied :
    CnfConverter.unitPass [("A", [["B"]]), ("B", [["b"]])]
      = ([("A", [["b"]]), ("B", [["b"]])], true)
    ∧ (["b"] : Rule) ∈ lookupD (CnfConverter.unitPass [("A", [["B"]]), ("B", [["b"]])]).1 "A" :=
  ⟨rfl, by decide⟩

/-- C8, counterexample: the claim asserts that a subtree rooted at an
original-grammar variable is always appended intact, even when its name
begins with X.  With the original grammar S -> Xy B, Xy -> a, B -> b (no
synthetic variables, empty `nonterm_map`), reconstructing S over the full
span splices the Xy subtree's children in its place — `append_child` tests
`child["name"].startswith("X")` — although the intact subtree (second
conjunct) is rooted at the original variable Xy. -/
theorem c8_original_X_variable_flattened :
    Cyk.reconstruct_tree
        (Cyk.cellAt [("S", [["Xy", "B"]]), ("Xy", [["a"]]), ("B", [["b"]])] ["a", "b"]) [] 2 0 1 "S"
      = .mkNode "S" [.mkLeaf (Cyk.quote "a"), .mkNode "B" [.mkLeaf (Cyk.quote "b")]]
    ∧ Cyk.reconstruct_tree
        (Cyk.cellAt [("S", [["Xy", "B"]]), ("Xy", [["a"]]), ("B", [["b"]])] ["a", "b"]) [] 2 0 0 "Xy"
      = .mkNode "Xy" [.mkLeaf (Cyk.quote "a")] :=
  ⟨rfl, rfl⟩
/-- `append_child` appends exactly the contribution described by
`spliceContrib`. -/
theorem appendChild_eq_spliceContrib (nm : List (String × String)) (cs : List Cyk.PTree)
    (c : Cyk.PTree) : Cyk.appendChild nm cs c = cs ++ Cyk.spliceContrib nm c := by
  unfold Cyk.appendChild Cyk.spliceContrib
  by_cases h : (Cyk.startsWithX c.name && (nm.lookup c.name).isNone) = true
  · simp only [h, if_true]
    cases c <;> simp
  · simp only [Bool.not_eq_true] at h
    simp [h]

/-- C8, amended: flattening during reconstruction splices a subtree's
children in place of the subtree exactly when the subtree's root label
begins with the letter X and is not a key of `nonterm_map` (nothing at all
is appended if such a subtree has no `children` key); any other subtree —
X-initial or not — is appended intact.  Original-grammar variables whose
names begin with X (and are not `nonterm_map` keys) are therefore spliced
like synthetic ones. -/
theorem c8_splice_decided_by_name (cells : Nat → Nat → List Cyk.Entry)
    (nm : List (String × String)) (fuel i j : Nat) (v a : String) (k : Nat)
    (l r : Cyk.Entry) (rest : List Cyk.Entry)
    (h : (cells i j).filter (fun e => e.var == v) = Cyk.Entry.split a k l r :: rest) :
    Cyk.reconstruct_tree cells nm (fuel + 1) i j v
      = .mkNode a
          (Cyk.spliceContrib nm (Cyk.reconstruct_tree cells nm fuel i k l.var)
            ++ Cyk.spliceContrib nm (Cyk.reconstruct_tree cells nm fuel (k + 1) j r.var)) := by
  rw [Cyk.reconstruct_tree, h]
  simp only [appendChild_eq_spliceContrib, List.nil_append]

/-- Witness for the amended C8 at a concrete table: the grammar
S -> Xy B, Xy -> a, B -> b on input tokens a b. -/
theorem c8_splice_decided_by_name_witness :
    Cyk.reconstruct_tree
        (Cyk.cellAt [("S", [["Xy", "B"]]), ("Xy", [["a"]]), ("B", [["b"]])] ["a", "b"]) [] 1 0 1 "S"
      = .mkNode "S"
          (Cyk.spliceContrib []
              (Cyk.reconstruct_tree
                (Cyk.cellAt [("S", [["Xy", "B"]]), ("Xy", [["a"]]), ("B", [["b"]])] ["a", "b"])
                [] 0 0 0 "Xy")
            ++ Cyk.spliceContrib []
              (Cyk.reconstruct_tree
                (Cyk.cellAt [("S", [["Xy", "B"]]), ("Xy", [["a"]]), ("B", [["b"]])] ["a", "b"])
                [] 0 1 1 "B")) :=
  c8_splice_decided_by_name
    (Cyk.cellAt [("S", [["Xy", "B"]]), ("Xy", [["a"]]), ("B", [["b"]])] ["a", "b"])
    [] 0 0 1 "S" "S" 0 (.term "Xy" "a") (.term "B" "b") [] rfl
/-- `appendRuleTo` keeps the key list unchanged. -/
theorem keys_appendRuleTo (g : Grammar) (l : String) (r : Rule) :
    (appendRuleTo g l r).map Prod.fst = g.map Prod.fst := by
  unfold appendRuleTo
  rw [List.map_map]
  apply List.map_congr_left
  intro kv _
  show (if (kv.1 == l) = true then (kv.1, kv.2 ++ [r]) else kv).1 = kv.1
  split <;> rfl

/-- A list fold whose every step keeps the key list unchanged keeps the
key list unchanged. -/
theorem keys_foldl {α : Type} (f : Grammar → α → Grammar)
    (h : ∀ pm x, (f pm x).map Prod.fst = pm.map Prod.fst) (l : List α) (pm : Grammar) :
    (l.foldl f pm).map Prod.fst = pm.map Prod.fst := by
  induction l generalizing pm with
  | nil => rfl
  | cons x xs ih => rw [List.foldl_cons, ih, h]

/-- An absent key is not in the key list. -/
theorem not_mem_keys_of_lookup_none (g : Grammar) (a : String)
    (h : g.lookup a = none) : a ∉ g.map Prod.fst := by
  induction g with
  | nil => simp
  | cons kv rest ih =>
    simp only [List.lookup] at h
    cases hk : (a == kv.1) with
    | true => rw [hk] at h; cases h
    | false =>
      rw [hk] at h
      simp only [List.map_cons, List.mem_cons]
      rintro (he | hm)
      · rw [he] at hk; simp at hk
      · exact ih h hm

/-- `ensureKey` preserves key uniqueness. -/
theorem nodup_keys_ensureKey (g : Grammar) (l : String)
    (h : (g.map Prod.fst).Nodup) : ((ensureKey g l).map Prod.fst).Nodup := by
  unfold ensureKey
  by_cases hs : (g.lookup l).isSome = true
  · simp [hs, h]
  · simp only [hs, if_false, List.map_append]
    have hnone : g.lookup l = none := by
      cases hl : g.lookup l
      · rfl
      · rw [hl] at hs; simp at hs
    have := not_mem_keys_of_lookup_none g l hnone
    simp [List.nodup_append, h, this]

/-- `buildMapping` preserves key uniqueness of the accumulator. -/
theorem buildMapping_keys_nodup :
    ∀ (entries : List (String × List CfgParser.MapRhs)) (pm g : Grammar),
      (pm.map Prod.fst).Nodup → CfgParser.buildMapping pm entries = .ok g →
      (g.map Prod.fst).Nodup := by
  intro entries
  induction entries with
  | nil =>
    intro pm g hn h
    simp only [CfgParser.buildMapping] at h
    cases h
    exact hn
  | cons e rest ih =>
    intro pm g hn h
    obtain ⟨lhs, rhsList⟩ := e
    simp only [CfgParser.buildMapping] at h
    by_cases h1 : (lhs == "") = true
    · rw [if_pos h1] at h; cases h
    · rw [if_neg h1] at h
      by_cases h2 : (pyStrip lhs == "") = true
      · rw [if_pos h2] at h
        exact ih pm g hn h
      · rw [if_neg h2] at h
        by_cases h3 : (!CfgParser.is_variable (pyStrip lhs)) = true
        · rw [if_pos h3] at h; cases h
        · rw [if_neg h3] at h
          refine ih _ g ?_ h
          have hkeys : ((rhsList.foldl (fun pm rhs =>
              match rhs with
              | .str s => appendRuleTo pm (pyStrip lhs) (CfgParser.mapStrRule s)
              | .toks r => appendRuleTo pm (pyStrip lhs) (CfgParser.cleanSyms r))
              (ensureKey pm (pyStrip lhs))).map Prod.fst)
              = ((ensureKey pm (pyStrip lhs)).map Prod.fst) := by
            apply keys_foldl
            intro pm' x
            cases x <;> exact keys_appendRuleTo ..
          rw [hkeys]
          exact nodup_keys_ensureKey pm (pyStrip lhs) hn

/-- `buildListing` preserves key uniqueness of the accumulator. -/
theorem buildListing_keys_nodup :
    ∀ (entries : List (String × CfgParser.ListRhs)) (pm g : Grammar),
      (pm.map Prod.fst).Nodup → CfgParser.buildListing pm entries = .ok g →
      (g.map Prod.fst).Nodup := by
  intro entries
  induction entries with
  | nil =>
    intro pm g hn h
    simp only [CfgParser.buildListing] at h
    cases h
    exact hn
  | cons e rest ih =>
    intro pm g hn h
    obtain ⟨lhs, rhs⟩ := e
    simp only [CfgParser.buildListing] at h
    by_cases h1 : (lhs == "") = true
    · rw [if_pos h1] at h; cases h
    · rw [if_neg h1] at h
      by_cases h2 : (pyStrip lhs == "") = true
      · rw [if_pos h2] at h
        exact ih pm g hn h
      · rw [if_neg h2] at h
        by_cases h3 : (!CfgParser.is_variable (pyStrip lhs)) = true
        · rw [if_pos h3] at h; cases h
        · rw [if_neg h3] at h
          have hek := nodup_keys_ensureKey pm (pyStrip lhs) hn
          cases rhs with
          | str s =>
            refine ih _ g ?_ h
            rw [keys_foldl _ (fun pm' r => keys_appendRuleTo pm' (pyStrip lhs) r)]
            exact hek
          | arr v =>
            dsimp only at h
            by_cases h4 : (decide (v.length > 0) && v.all (fun x =>
                match x with | .l _ => true | .s _ => false)) = true
            · rw [if_pos h4] at h
              refine ih _ g ?_ h
              have : ((v.foldl (fun pm x =>
                  match x with
                  | .l r => appendRuleTo pm (pyStrip lhs) (CfgParser.cleanSyms r)
                  | .s _ => pm) (ensureKey pm (pyStrip lhs))).map Prod.fst)
                  = ((ensureKey pm (pyStrip lhs)).map Prod.fst) := by
                apply keys_foldl
                intro pm' x
                cases x with
                | l r => exact keys_appendRuleTo ..
                | s t => rfl
              rw [this]
              exact hek
            · rw [if_neg h4] at h
              refine ih _ g ?_ h
              rw [keys_appendRuleTo]
              exact hek

/-- C9, amended: every variable key of a successfully parsed grammar is
unique, but identical rules can repeat under one key — the alternation
`a | a` for S yields the rule `a` twice (the parser deduplicates
nothing). -/
theorem c9_unique_keys_duplicate_rules :
    (∀ (sv : String) (ps : CfgParser.Productions) (g : Grammar),
        CfgParser.parse_cfg sv ps = .ok g → (g.map Prod.fst).Nodup)
    ∧ CfgParser.parse_cfg "S" (.listing [("S", .str "a | a")]) = .ok [("S", [["a"], ["a"]])] := by
  constructor
  · intro sv ps g h
    unfold CfgParser.parse_cfg at h
    by_cases h1 : (sv == "") = true
    · rw [if_pos h1] at h; cases h
    · rw [if_neg h1] at h
      by_cases h2 : (!CfgParser.is_variable (pyStrip sv)) = true
      · rw [if_pos h2] at h; cases h
      · rw [if_neg h2] at h
        cases hb : (match ps with
            | .mapping m => CfgParser.buildMapping [] m
            | .listing l => CfgParser.buildListing [] l) with
        | error e => rw [hb] at h; cases h
        | ok pm0 =>
          rw [hb] at h
          have hpm0 : (pm0.map Prod.fst).Nodup := by
            cases ps with
            | mapping m => exact buildMapping_keys_nodup m [] pm0 (by simp) hb
            | listing l => exact buildListing_keys_nodup l [] pm0 (by simp) hb
          simp only at h
          by_cases h3 : (pm0.filter (fun kv => kv.1 != "" && !kv.2.isEmpty)).isEmpty = true
          · rw [if_pos h3] at h; cases h
          · rw [if_neg h3] at h
            by_cases h4 : CfgParser.hasUndeclared
                (pm0.filter (fun kv => kv.1 != "" && !kv.2.isEmpty))
                ((pm0.filter (fun kv => kv.1 != "" && !kv.2.isEmpty)).map Prod.fst) = true
            · rw [if_pos h4] at h; cases h
            · rw [if_neg h4] at h
              set pm := pm0.filter (fun kv => kv.1 != "" && !kv.2.isEmpty) with hpm
              have hpmn : (pm.map Prod.fst).Nodup :=
                hpm0.sublist ((List.filter_sublist pm0).map Prod.fst)
              by_cases h5 : (!(CfgParser.computeUseful pm (pm.length + 1) []).contains
                  (pyStrip sv)) = true
              · rw [if_pos h5] at h; cases h
              · rw [if_neg h5] at h
                set useful := CfgParser.computeUseful pm (pm.length + 1) [] with hu
                set ug := CfgParser.buildUseful pm useful with hug
                have hugn : (ug.map Prod.fst).Nodup := by
                  have : ug.map Prod.fst = (pm.filter (fun kv => useful.contains kv.1)).map
                      Prod.fst := by
                    rw [hug]
                    unfold CfgParser.buildUseful
                    rw [List.map_map]
                    rfl
                  rw [this]
                  exact hpmn.sublist ((List.filter_sublist pm).map Prod.fst)
                by_cases h6 : (!(CfgParser.computeReach ug (ug.length + 2) [pyStrip sv]
                    [pyStrip sv]).contains (pyStrip sv)) = true
                · rw [if_pos h6] at h; cases h
                · rw [if_neg h6] at h
                  set reach := CfgParser.computeReach ug (ug.length + 2) [pyStrip sv]
                      [pyStrip sv] with hr
                  by_cases h7 : ((CfgParser.buildReach ug reach).lookup (pyStrip sv)).isNone
                      = true
                  · rw [if_pos h7] at h; cases h
                  · rw [if_neg h7] at h
                    cases h
                    exact hugn.sublist ((List.filter_sublist ug).map Prod.fst)
  · rfl

/-- Witness for the amended C9: the theorem applied at the duplicate-rule
input certifies the unique-keys half on its output grammar. -/
theorem c9_unique_keys_duplicate_rules_witness :
    (([("S", [["a"], ["a"]])] : Grammar).map Prod.fst).Nodup :=
  c9_unique_keys_duplicate_rules.1 "S" (.listing [("S", .str "a | a")])
    [("S", [["a"], ["a"]])] c9_unique_keys_duplicate_rules.2
open CnfConverter

/-- Lawful boolean equality is symmetric. -/
theorem beq_swap {α : Type} [BEq α] [LawfulBEq α] (a b : α) : (a == b) = (b == a) := by
  cases h : b == a with
  | false => exact beq_eq_false_iff_ne.mpr (fun he => (beq_eq_false_iff_ne.mp h) he.symm)
  | true => exact beq_iff_eq.mpr (beq_iff_eq.mp h).symm

/-- Unfold one association-list entry of a defaulted lookup. -/
theorem lookupD_cons (k : String) (v : List Rule) (rest : Grammar) (x : String) :
    lookupD ((k, v) :: rest) x = if x == k then v else lookupD rest x := by
  unfold lookupD
  simp only [List.lookup]
  cases h : x == k <;> simp [h]

/-- Unfold one association-list entry of `appendRuleTo`. -/
theorem appendRuleTo_cons (k : String) (v : List Rule) (rest : Grammar) (a : String) (r : Rule) :
    appendRuleTo ((k, v) :: rest) a r
      = (if k == a then (k, v ++ [r]) else (k, v)) :: appendRuleTo rest a r := rfl

/-- Unfold one association-list entry of `eraseRuleFrom`. -/
theorem eraseRuleFrom_cons (k : String) (v : List Rule) (rest : Grammar) (a : String) (r : Rule) :
    eraseRuleFrom ((k, v) :: rest) a r
      = (if k == a then (k, v.erase r) else (k, v)) :: eraseRuleFrom rest a r := rfl

/-- Unfold one association-list entry of a lookup presence test. -/
theorem lookup_isSome_cons (k : String) (v : List Rule) (rest : Grammar) (x : String) :
    ((((k, v) :: rest) : Grammar).lookup x).isSome
      = if x == k then true else (rest.lookup x).isSome := by
  simp only [List.lookup]
  cases h : x == k <;> simp [h]

/-- A key is present exactly when it appears in the key list. -/
theorem lookup_isSome_iff_mem_keys (g : Grammar) (a : String) :
    (g.lookup a).isSome = true ↔ a ∈ g.map Prod.fst := by
  induction g with
  | nil => simp [List.lookup]
  | cons kv rest ih =>
    obtain ⟨k, v⟩ := kv
    rw [lookup_isSome_cons]
    simp only [List.map_cons, List.mem_cons]
    cases hk : a == k with
    | true =>
      have : a = k := eq_of_beq hk
      simp [this]
    | false =>
      have : a ≠ k := by intro he; subst he; simp at hk
      simp [ih, this]

/-- With unique keys, membership determines the lookup result. -/
theorem lookup_eq_of_mem_nodup (g : Grammar) (a : String) (rs : List Rule)
    (hmem : (a, rs) ∈ g) (hkeys : (g.map Prod.fst).Nodup) : g.lookup a = some rs := by
  induction g with
  | nil => cases hmem
  | cons kv rest ih =>
    simp only [List.map_cons, List.nodup_cons] at hkeys
    rcases List.mem_cons.mp hmem with he | hm
    · rw [← he]
      simp [List.lookup]
    · have hane : a ≠ kv.1 := by
        intro he2
        exact hkeys.1 (he2 ▸ List.mem_map_of_mem Prod.fst hm)
      have hb : (a == kv.1) = false := beq_eq_false_iff_ne.mpr hane
      obtain ⟨k, v⟩ := kv
      simp only [List.lookup, hb]
      exact ih hm hkeys.2

/-- Appending a rule to key `a` appends it to that entry's rule list. -/
theorem lookupD_appendRuleTo_self (g : Grammar) (a : String) (r : Rule)
    (h : (g.lookup a).isSome = true) :
    lookupD (appendRuleTo g a r) a = lookupD g a ++ [r] := by
  induction g with
  | nil => simp [List.lookup] at h
  | cons kv rest ih =>
    obtain ⟨k, v⟩ := kv
    rw [appendRuleTo_cons]
    rw [lookup_isSome_cons] at h
    by_cases hk : (k == a) = true
    · have hak : (a == k) = true := (beq_swap a k).trans hk
      rw [if_pos hk, lookupD_cons, lookupD_cons, if_pos hak, if_pos hak]
    · have hkf : (k == a) = false := by simpa using hk
      have hak : (a == k) = false := (beq_swap a k).trans hkf
      rw [if_neg hk, lookupD_cons, lookupD_cons, if_neg (by simp [hak]), if_neg (by simp [hak])]
      rw [hak] at h
      simp only [Bool.false_eq_true, if_false] at h
      exact ih h

/-- Appending a rule to key `a` leaves other entries unchanged. -/
theorem lookupD_appendRuleTo_ne (g : Grammar) (a : String) (r : Rule) (x : String)
    (hx : x ≠ a) : lookupD (appendRuleTo g a r) x = lookupD g x := by
  induction g with
  | nil => rfl
  | cons kv rest ih =>
    obtain ⟨k, v⟩ := kv
    rw [appendRuleTo_cons]
    by_cases hk : (k == a) = true
    · have hxk : (x == k) = false :=
        beq_eq_false_iff_ne.mpr (fun he => hx (he.trans (eq_of_beq hk)))
      rw [if_pos hk, lookupD_cons, lookupD_cons, if_neg (by simp [hxk]), if_neg (by simp [hxk])]
      exact ih
    · rw [if_neg hk, lookupD_cons, lookupD_cons]
      by_cases hxk : (x == k) = true
      · rw [if_pos hxk, if_pos hxk]
      · rw [if_neg hxk, if_neg hxk]
        exact ih

/-- Erasing a rule at key `a` erases it from that entry's rule list. -/
theorem lookupD_eraseRuleFrom_self (g : Grammar) (a : String) (r : Rule)
    (h : (g.lookup a).isSome = true) :
    lookupD (eraseRuleFrom g a r) a = (lookupD g a).erase r := by
  induction g with
  | nil => simp [List.lookup] at h
  | cons kv rest ih =>
    obtain ⟨k, v⟩ := kv
    rw [eraseRuleFrom_cons]
    rw [lookup_isSome_cons] at h
    by_cases hk : (k == a) = true
    · have hak : (a == k) = true := (beq_swap a k).trans hk
      rw [if_pos hk, lookupD_cons, lookupD_cons, if_pos hak, if_pos hak]
    · have hkf : (k == a) = false := by simpa using hk
      have hak : (a == k) = false := (beq_swap a k).trans hkf
      rw [if_neg hk, lookupD_cons, lookupD_cons, if_neg (by simp [hak]), if_neg (by simp [hak])]
      rw [hak] at h
      simp only [Bool.false_eq_true, if_false] at h
      exact ih h

/-- Erasing a rule at key `a` leaves other entries unchanged. -/
theorem lookupD_eraseRuleFrom_ne (g : Grammar) (a : String) (r : Rule) (x : String)
    (hx : x ≠ a) : lookupD (eraseRuleFrom g a r) x = lookupD g x := by
  induction g with
  | nil => rfl
  | cons kv rest ih =>
    obtain ⟨k, v⟩ := kv
    rw [eraseRuleFrom_cons]
    by_cases hk : (k == a) = true
    · have hxk : (x == k) = false :=
        beq_eq_false_iff_ne.mpr (fun he => hx (he.trans (eq_of_beq hk)))
      rw [if_pos hk, lookupD_cons, lookupD_cons, if_neg (by simp [hxk]), if_neg (by simp [hxk])]
      exact ih
    · rw [if_neg hk, lookupD_cons, lookupD_cons]
      by_cases hxk : (x == k) = true
      · rw [if_pos hxk, if_pos hxk]
      · rw [if_neg hxk, if_neg hxk]
        exact ih

/-- `eraseRuleFrom` keeps the key list unchanged. -/
theorem keys_eraseRuleFrom (g : Grammar) (l : String) (r : Rule) :
    (eraseRuleFrom g l r).map Prod.fst = g.map Prod.fst := by
  unfold eraseRuleFrom
  rw [List.map_map]
  apply List.map_congr_left
  intro kv _
  show (if (kv.1 == l) = true then (kv.1, kv.2.erase r) else kv).1 = kv.1
  split <;> rfl

/-- A qualifying copied rule is never the unit rule of a variable. -/
theorem copy_cond_ne_unit (b : String) (hb : is_variable b = true) (rB : Rule)
    (hq : (!(is_unit rB) || isSingleTerminal rB) = true) : rB ≠ [b] := by
  intro he
  subst he
  simp [is_unit, isSingleTerminal, hb] at hq

/-- The copy fold of unit elimination: keys and other entries are
untouched, the count of the eliminated unit rule at the target entry is
unchanged, existing rules stay, every qualifying source rule ends up
present, and the changed flag never resets. -/
theorem copyFold_facts (a b : String) (hb : is_variable b = true) :
    ∀ (l : List Rule) (acc : Grammar × Bool),
      ((l.foldl (copyStepRule a) acc).1.map Prod.fst = acc.1.map Prod.fst)
      ∧ (∀ x, x ≠ a → lookupD (l.foldl (copyStepRule a) acc).1 x = lookupD acc.1 x)
      ∧ ((acc.1.lookup a).isSome = true →
          (lookupD (l.foldl (copyStepRule a) acc).1 a).count [b]
            = (lookupD acc.1 a).count [b])
      ∧ ((acc.1.lookup a).isSome = true → ∀ s, s ∈ lookupD acc.1 a →
          s ∈ lookupD (l.foldl (copyStepRule a) acc).1 a)
      ∧ ((acc.1.lookup a).isSome = true →
          ∀ rB ∈ l, (!(is_unit rB) || isSingleTerminal rB) = true →
          rB ∈ lookupD (l.foldl (copyStepRule a) acc).1 a)
      ∧ (acc.2 = true → (l.foldl (copyStepRule a) acc).2 = true) := by
  intro l
  induction l with
  | nil =>
    intro acc
    exact ⟨rfl, fun _ _ => rfl, fun _ => rfl, fun _ s hs => hs, fun _ rB h => absurd h
      (List.not_mem_nil rB), fun h => h⟩
  | cons r rest ih =>
    intro acc
    rw [List.foldl_cons]
    have hstep : (copyStepRule a acc r).1.map Prod.fst = acc.1.map Prod.fst
        ∧ (∀ x, x ≠ a → lookupD (copyStepRule a acc r).1 x = lookupD acc.1 x)
        ∧ ((acc.1.lookup a).isSome = true →
            (lookupD (copyStepRule a acc r).1 a).count [b] = (lookupD acc.1 a).count [b])
        ∧ ((acc.1.lookup a).isSome = true → ∀ s, s ∈ lookupD acc.1 a →
            s ∈ lookupD (copyStepRule a acc r).1 a)
        ∧ ((acc.1.lookup a).isSome = true →
            (!(is_unit r) || isSingleTerminal r) = true →
            r ∈ lookupD (copyStepRule a acc r).1 a)
        ∧ (acc.2 = true → (copyStepRule a acc r).2 = true) := by
      unfold copyStepRule
      by_cases hq : (!(is_unit r) || isSingleTerminal r) = true
      · rw [if_pos hq]
        by_cases hc : ((lookupD acc.1 a).contains r) = true
        · rw [if_pos hc]
          exact ⟨rfl, fun _ _ => rfl, fun _ => rfl, fun _ s hs => hs,
            fun _ _ => List.elem_iff.mp hc, fun h => h⟩
        · rw [if_neg hc]
          refine ⟨keys_appendRuleTo .., fun x hx => lookupD_appendRuleTo_ne acc.1 a r x hx,
            ?_, ?_, ?_, fun _ => rfl⟩
          · intro hs
            rw [lookupD_appendRuleTo_self acc.1 a r hs, List.count_append]
            have : ([b] : Rule) ∉ [r] := by
              intro hm
              rcases List.mem_singleton.mp hm with he
              exact copy_cond_ne_unit b hb r hq he.symm
            rw [List.count_eq_zero.mpr this, Nat.add_zero]
          · intro hs s hsm
            rw [lookupD_appendRuleTo_self acc.1 a r hs]
            exact List.mem_append_left _ hsm
          · intro hs _
            rw [lookupD_appendRuleTo_self acc.1 a r hs]
            exact List.mem_append_right _ (List.mem_singleton.mpr rfl)
      · rw [if_neg hq]
        exact ⟨rfl, fun _ _ => rfl, fun _ => rfl, fun _ s hs => hs,
          fun _ hq2 => absurd hq2 hq, fun h => h⟩
    obtain ⟨sk, sne, scnt, smono, smem, sflag⟩ := hstep
    obtain ⟨ik, ine, icnt, imono, imem, iflag⟩ := ih (copyStepRule a acc r)
    have hsome : (acc.1.lookup a).isSome = true →
        ((copyStepRule a acc r).1.lookup a).isSome = true := by
      intro h
      rw [lookup_isSome_iff_mem_keys, sk, ← lookup_isSome_iff_mem_keys]
      exact h
    refine ⟨sk ▸ ik, fun x hx => (ine x hx).trans (sne x hx), ?_, ?_, ?_, ?_⟩
    · intro h
      rw [icnt (hsome h), scnt h]
    · intro h s hs
      exact imono (hsome h) s (smono h s hs)
    · intro h rB hm hq
      rcases List.mem_cons.mp hm with he | hmr
      · subst he
        exact imono (hsome h) rB (smem h hq)
      · exact imem (hsome h) rB hmr hq
    · intro h
      exact iflag (sflag h)

/-- A single unit-elimination rule step keeps the key list unchanged. -/
theorem unitStep_keys (g : Grammar) (c : String) (acc : Grammar × Bool) (r : Rule) :
    (unitStepRule g c acc r).1.map Prod.fst = acc.1.map Prod.fst := by
  rcases r with _ | ⟨x, _ | ⟨y, t⟩⟩
  · rfl
  · simp only [unitStepRule]
    by_cases hv : is_variable x = true
    · rw [if_pos hv]
      by_cases hxc : (x == c) = true
      · rw [if_pos hxc]
      · rw [if_neg hxc]
        have hcopy := (copyFold_facts c "B" rfl (lookupD g x) acc).1
        by_cases hcont : ((lookupD (copyRulesOfB g acc c x).1 c).contains [x]) = true
        · rw [if_pos hcont]
          exact (keys_eraseRuleFrom ..).trans hcopy
        · rw [if_neg hcont]
          exact hcopy
    · rw [if_neg hv]
  · rfl

/-- A single unit-elimination rule step for variable `c` does not change
the rules of any other variable. -/
theorem unitStep_ne (g : Grammar) (c : String) (acc : Grammar × Bool) (r : Rule)
    (x : String) (hx : x ≠ c) :
    lookupD (unitStepRule g c acc r).1 x = lookupD acc.1 x := by
  rcases r with _ | ⟨y, _ | ⟨z, t⟩⟩
  · rfl
  · simp only [unitStepRule]
    by_cases hv : is_variable y = true
    · rw [if_pos hv]
      by_cases hyc : (y == c) = true
      · rw [if_pos hyc]
      · rw [if_neg hyc]
        have hcopy := ((copyFold_facts c "B" rfl (lookupD g y) acc).2.1) x hx
        by_cases hcont : ((lookupD (copyRulesOfB g acc c y).1 c).contains [y]) = true
        · rw [if_pos hcont]
          exact (lookupD_eraseRuleFrom_ne _ c [y] x hx).trans hcopy
        · rw [if_neg hcont]
          exact hcopy
    · rw [if_neg hv]
  · rfl

/-- A single unit-elimination rule step never resets the changed flag. -/
theorem unitStep_flag (g : Grammar) (c : String) (acc : Grammar × Bool) (r : Rule)
    (h : acc.2 = true) : (unitStepRule g c acc r).2 = true := by
  rcases r with _ | ⟨y, _ | ⟨z, t⟩⟩
  · exact h
  · simp only [unitStepRule]
    by_cases hv : is_variable y = true
    · rw [if_pos hv]
      by_cases hyc : (y == c) = true
      · rw [if_pos hyc]; exact h
      · rw [if_neg hyc]
        have hcopy := ((copyFold_facts c "B" rfl (lookupD g y) acc).2.2.2.2.2) h
        by_cases hcont : ((lookupD (copyRulesOfB g acc c y).1 c).contains [y]) = true
        · rw [if_pos hcont]
        · rw [if_neg hcont]
          exact hcopy
    · rw [if_neg hv]; exact h
  · exact h

/-- The rule fold of the unit-elimination pass over vars distinct from `a`
leaves the rules of `a` unchanged, keeps keys, and never resets the flag. -/
theorem unitFold_ne (g : Grammar) (c : String) :
    ∀ (rules : List Rule) (acc : Grammar × Bool),
      (∀ x, x ≠ c → lookupD (rules.foldl (unitStepRule g c) acc).1 x = lookupD acc.1 x)
      ∧ ((rules.foldl (unitStepRule g c) acc).1.map Prod.fst = acc.1.map Prod.fst)
      ∧ (acc.2 = true → (rules.foldl (unitStepRule g c) acc).2 = true) := by
  intro rules
  induction rules with
  | nil => exact fun acc => ⟨fun _ _ => rfl, rfl, fun h => h⟩
  | cons r rest ih =>
    intro acc
    rw [List.foldl_cons]
    obtain ⟨ine, ik, iflag⟩ := ih (unitStepRule g c acc r)
    exact ⟨fun x hx => (ine x hx).trans (unitStep_ne g c acc r x hx),
      ik.trans (unitStep_keys g c acc r),
      fun h => iflag (unitStep_flag g c acc r h)⟩

/-- `copyFold_facts` restated through `copyRulesOfB`. -/
theorem copyRules_facts (g : Grammar) (acc : Grammar × Bool) (a b c : String)
    (hc : is_variable c = true) :
    ((copyRulesOfB g acc a b).1.map Prod.fst = acc.1.map Prod.fst)
    ∧ (∀ x, x ≠ a → lookupD (copyRulesOfB g acc a b).1 x = lookupD acc.1 x)
    ∧ ((acc.1.lookup a).isSome = true →
        (lookupD (copyRulesOfB g acc a b).1 a).count [c] = (lookupD acc.1 a).count [c])
    ∧ ((acc.1.lookup a).isSome = true → ∀ s, s ∈ lookupD acc.1 a →
        s ∈ lookupD (copyRulesOfB g acc a b).1 a)
    ∧ ((acc.1.lookup a).isSome = true → ∀ rB ∈ lookupD g b,
        (!(is_unit rB) || isSingleTerminal rB) = true →
        rB ∈ lookupD (copyRulesOfB g acc a b).1 a)
    ∧ (acc.2 = true → (copyRulesOfB g acc a b).2 = true) :=
  copyFold_facts a c hc (lookupD g b) acc

/-- The rule fold of the unit-elimination pass over the rules of the
variable `a` itself: the key set is kept; every processed occurrence of
the unit rule towards `b` decrements its count in the rules of `a` (down
to zero); non-unit rules of `a` are never removed; one processed
occurrence suffices to copy in every non-unit rule of `b`; and a
processed occurrence whose removal actually fires sets the changed flag. -/
theorem unitFold_self (g : Grammar) (a b : String) (hb : is_variable b = true)
    (hba : b ≠ a) :
    ∀ (rules : List Rule) (acc : Grammar × Bool), (acc.1.lookup a).isSome = true →
      (((rules.foldl (unitStepRule g a) acc).1.lookup a).isSome = true)
      ∧ ((lookupD (rules.foldl (unitStepRule g a) acc).1 a).count [b]
          = (lookupD acc.1 a).count [b] - rules.count [b])
      ∧ (∀ s, is_unit s = false → s ∈ lookupD acc.1 a →
          s ∈ lookupD (rules.foldl (unitStepRule g a) acc).1 a)
      ∧ (1 ≤ rules.count [b] → ∀ rB ∈ lookupD g b, is_unit rB = false →
          rB ∈ lookupD (rules.foldl (unitStepRule g a) acc).1 a)
      ∧ (1 ≤ rules.count [b] → rules.count [b] ≤ (lookupD acc.1 a).count [b] →
          (rules.foldl (unitStepRule g a) acc).2 = true) := by
  intro rules
  induction rules with
  | nil =>
    intro acc hsome
    refine ⟨hsome, by simp, fun s _ hs => hs, ?_, ?_⟩
    · intro h; simp [List.count_nil] at h
    · intro h; simp [List.count_nil] at h
  | cons r rest ih =>
    intro acc hsome
    rw [List.foldl_cons]
    rw [List.count_cons]
    -- step facts for the head rule occurrence
    have hkeys_step := unitStep_keys g a acc r
    have hsome_step : ((unitStepRule g a acc r).1.lookup a).isSome = true := by
      rw [lookup_isSome_iff_mem_keys, hkeys_step, ← lookup_isSome_iff_mem_keys]
      exact hsome
    obtain ⟨isome, icnt, imono, icopy, iflag⟩ := ih (unitStepRule g a acc r) hsome_step
    have hflag_mono := (unitFold_ne g a rest (unitStepRule g a acc r)).2.2
    -- classify the head rule
    by_cases hrb : r = [b]
    · -- an occurrence of the eliminated unit rule A -> B
      subst hrb
      have hbeq : (([b] : Rule) == [b]) = true := by simp
      have hstep_cnt : (lookupD (unitStepRule g a acc [b]).1 a).count [b]
          = (lookupD acc.1 a).count [b] - 1 := by
        simp only [unitStepRule, hb, if_true]
        rw [if_neg (by simp [beq_eq_false_iff_ne.mpr hba])]
        have hcopy_cnt := (copyRules_facts g acc a b b hb).2.2.1 hsome
        have hcopy_some : ((copyRulesOfB g acc a b).1.lookup a).isSome = true := by
          rw [lookup_isSome_iff_mem_keys, (copyRules_facts g acc a b b hb).1,
            ← lookup_isSome_iff_mem_keys]
          exact hsome
        by_cases hcont : ((lookupD (copyRulesOfB g acc a b).1 a).contains [b]) = true
        · rw [if_pos hcont]
          rw [lookupD_eraseRuleFrom_self _ a [b] hcopy_some, List.count_erase_self,
            hcopy_cnt]
        · rw [if_neg hcont]
          have hnm : ([b] : Rule) ∉ lookupD (copyRulesOfB g acc a b).1 a := by
            intro hm
            exact hcont (List.elem_iff.mpr hm)
          have hz : (lookupD (copyRulesOfB g acc a b).1 a).count [b] = 0 :=
            List.count_eq_zero.mpr hnm
          have hacc0 : (lookupD acc.1 a).count [b] = 0 := hcopy_cnt.symm.trans hz
          omega
      have hstep_mono : ∀ s, is_unit s = false → s ∈ lookupD acc.1 a →
          s ∈ lookupD (unitStepRule g a acc [b]).1 a := by
        intro s hsu hsm
        simp only [unitStepRule, hb, if_true]
        rw [if_neg (by simp [beq_eq_false_iff_ne.mpr hba])]
        have hcopy_mono := (copyRules_facts g acc a b b hb).2.2.2.1 hsome s hsm
        have hcopy_some : ((copyRulesOfB g acc a b).1.lookup a).isSome = true := by
          rw [lookup_isSome_iff_mem_keys, (copyRules_facts g acc a b b hb).1,
            ← lookup_isSome_iff_mem_keys]
          exact hsome
        by_cases hcont : ((lookupD (copyRulesOfB g acc a b).1 a).contains [b]) = true
        · rw [if_pos hcont]
          rw [lookupD_eraseRuleFrom_self _ a [b] hcopy_some]
          refine (List.mem_erase_of_ne ?_).mpr hcopy_mono
          intro he
          rw [he] at hsu
          simp [is_unit, hb] at hsu
        · rw [if_neg hcont]
          exact hcopy_mono
      have hstep_copy : ∀ rB ∈ lookupD g b, is_unit rB = false →
          rB ∈ lookupD (unitStepRule g a acc [b]).1 a := by
        intro rB hrm hru
        simp only [unitStepRule, hb, if_true]
        rw [if_neg (by simp [beq_eq_false_iff_ne.mpr hba])]
        have hq : (!(is_unit rB) || isSingleTerminal rB) = true := by
          simp [hru]
        have hcopy_mem := (copyRules_facts g acc a b b hb).2.2.2.2.1 hsome rB hrm hq
        have hcopy_some : ((copyRulesOfB g acc a b).1.lookup a).isSome = true := by
          rw [lookup_isSome_iff_mem_keys, (copyRules_facts g acc a b b hb).1,
            ← lookup_isSome_iff_mem_keys]
          exact hsome
        by_cases hcont : ((lookupD (copyRulesOfB g acc a b).1 a).contains [b]) = true
        · rw [if_pos hcont]
          rw [lookupD_eraseRuleFrom_self _ a [b] hcopy_some]
          refine (List.mem_erase_of_ne ?_).mpr hcopy_mem
          intro he
          rw [he] at hru
          simp [is_unit, hb] at hru
        · rw [if_neg hcont]
          exact hcopy_mem
      have hstep_flag : 1 ≤ (lookupD acc.1 a).count [b] →
          (unitStepRule g a acc [b]).2 = true := by
        intro hcnt
        simp only [unitStepRule, hb, if_true]
        rw [if_neg (by simp [beq_eq_false_iff_ne.mpr hba])]
        have hcopy_cnt := (copyRules_facts g acc a b b hb).2.2.1 hsome
        have hcont : ((lookupD (copyRulesOfB g acc a b).1 a).contains [b]) = true := by
          apply List.elem_iff.mpr
          apply List.count_pos_iff.mp
          rw [hcopy_cnt]
          omega
        rw [if_pos hcont]
      refine ⟨isome, ?_, ?_, ?_, ?_⟩
      · rw [icnt, hstep_cnt, hbeq, if_pos rfl]
        omega
      · intro s hsu hsm
        exact imono s hsu (hstep_mono s hsu hsm)
      · intro _ rB hrm hru
        exact imono rB (by simpa [is_unit] using hru) (hstep_copy rB hrm hru)
      · intro _ hle
        apply hflag_mono
        apply hstep_flag
        rw [hbeq, if_pos rfl] at hle
        omega
    · -- any other rule occurrence: the count of [b] at a is unchanged
      have hrbeq : ((r : Rule) == [b]) = false := by
        rw [beq_swap]
        exact beq_eq_false_iff_ne.mpr (fun he => hrb he.symm)
      have hstep_cnt : (lookupD (unitStepRule g a acc r).1 a).count [b]
          = (lookupD acc.1 a).count [b] := by
        rcases r with _ | ⟨x, _ | ⟨y, t⟩⟩
        · rfl
        · simp only [unitStepRule]
          by_cases hv : is_variable x = true
          · rw [if_pos hv]
            by_cases hxa : (x == a) = true
            · rw [if_pos hxa]
            · rw [if_neg hxa]
              have hcopy_cnt := (copyRules_facts g acc a x b hb).2.2.1 hsome
              have hcopy_some : ((copyRulesOfB g acc a x).1.lookup a).isSome = true := by
                rw [lookup_isSome_iff_mem_keys, (copyRules_facts g acc a x b hb).1,
                  ← lookup_isSome_iff_mem_keys]
                exact hsome
              by_cases hcont : ((lookupD (copyRulesOfB g acc a x).1 a).contains [x]) = true
              · rw [if_pos hcont]
                rw [lookupD_eraseRuleFrom_self _ a [x] hcopy_some]
                rw [List.count_erase_of_ne ?_ _, hcopy_cnt]
                intro he
                exact hrb (by simpa using he.symm) 
              · rw [if_neg hcont]
                exact hcopy_cnt
          · rw [if_neg hv]
        · rfl
      have hstep_mono : ∀ s, is_unit s = false → s ∈ lookupD acc.1 a →
          s ∈ lookupD (unitStepRule g a acc r).1 a := by
        intro s hsu hsm
        rcases r with _ | ⟨x, _ | ⟨y, t⟩⟩
        · exact hsm
        · simp only [unitStepRule]
          by_cases hv : is_variable x = true
          · rw [if_pos hv]
            by_cases hxa : (x == a) = true
            · rw [if_pos hxa]; exact hsm
            · rw [if_neg hxa]
              have hcopy_mono := (copyRules_facts g acc a x b hb).2.2.2.1 hsome s hsm
              have hcopy_some : ((copyRulesOfB g acc a x).1.lookup a).isSome = true := by
                rw [lookup_isSome_iff_mem_keys, (copyRules_facts g acc a x b hb).1,
                  ← lookup_isSome_iff_mem_keys]
                exact hsome
              by_cases hcont : ((lookupD (copyRulesOfB g acc a x).1 a).contains [x]) = true
              · rw [if_pos hcont]
                rw [lookupD_eraseRuleFrom_self _ a [x] hcopy_some]
                refine (List.mem_erase_of_ne ?_).mpr hcopy_mono
                intro he
                rw [he] at hsu
                simp [is_unit, hv] at hsu
              · rw [if_neg hcont]
                exact hcopy_mono
          · rw [if_neg hv]; exact hsm
        · exact hsm
      refine ⟨isome, ?_, ?_, ?_, ?_⟩
      · rw [icnt, hstep_cnt, hrbeq]
        simp
      · intro s hsu hsm
        exact imono s hsu (hstep_mono s hsu hsm)
      · intro hc rB hrm hru
        simp only [hrbeq, Bool.false_eq_true, if_false, Nat.add_zero] at hc
        exact icopy hc rB hrm hru
      · intro hc hle
        simp only [hrbeq, Bool.false_eq_true, if_false, Nat.add_zero] at hc hle
        apply iflag hc
        rw [hstep_cnt]
        exact hle

/-- The outer fold of the unit-elimination pass over pairs whose key
differs from `a` leaves the rules of `a` unchanged, keeps keys, and never
resets the changed flag. -/
theorem unitPass_outer_ne (g : Grammar) (a : String) :
    ∀ (l : List (String × List Rule)) (acc : Grammar × Bool), (∀ kv ∈ l, kv.1 ≠ a) →
      (lookupD ((l.foldl (fun acc kv => kv.2.foldl (unitStepRule g kv.1) acc) acc).1) a
          = lookupD acc.1 a)
      ∧ ((l.foldl (fun acc kv => kv.2.foldl (unitStepRule g kv.1) acc) acc).1.map Prod.fst
          = acc.1.map Prod.fst)
      ∧ (acc.2 = true →
          (l.foldl (fun acc kv => kv.2.foldl (unitStepRule g kv.1) acc) acc).2 = true) := by
  intro l
  induction l with
  | nil => exact fun acc _ => ⟨rfl, rfl, fun h => h⟩
  | cons kv rest ih =>
    intro acc hne
    rw [List.foldl_cons]
    obtain ⟨ine, ik, iflag⟩ := ih (kv.2.foldl (unitStepRule g kv.1) acc)
      (fun kv2 h2 => hne kv2 (List.mem_cons_of_mem kv h2))
    obtain ⟨sne, sk, sflag⟩ := unitFold_ne g kv.1 kv.2 acc
    have hka : a ≠ kv.1 := fun he => (hne kv (List.mem_cons_self kv rest)) he.symm
    exact ⟨ine.trans (sne a hka), ik.trans sk, fun h => iflag (sflag h)⟩

/-- C5, amended: one pass of unit-production elimination, for a unit rule
`A -> B` with B distinct from A present in a unique-keys grammar, copies
into A every rule of B that is not itself a unit production — pure-terminal
unit rules (single-terminal rules) included — removes every occurrence of
`A -> B`, and reports a change so that the loop repeats to its fixed
point. -/
theorem c5_unit_pass_amended (g : Grammar) (hkeys : (g.map Prod.fst).Nodup)
    (a b : String) (rulesA : List Rule) (hmem : (a, rulesA) ∈ g)
    (hb : CnfConverter.is_variable b = true) (hba : b ≠ a) (hunit : [b] ∈ rulesA) :
    (∀ rB ∈ lookupD g b, CnfConverter.is_unit rB = false →
        rB ∈ lookupD (CnfConverter.unitPass g).1 a)
    ∧ ([b] : Rule) ∉ lookupD (CnfConverter.unitPass g).1 a
    ∧ (CnfConverter.unitPass g).2 = true := by
  have hlook : g.lookup a = some rulesA := lookup_eq_of_mem_nodup g a rulesA hmem hkeys
  have hlookD : lookupD g a = rulesA := by rw [lookupD, hlook]; rfl
  have hsome : (g.lookup a).isSome = true := by rw [hlook]; rfl
  obtain ⟨pre, post, hg⟩ := List.append_of_mem hmem
  have hkeys2 := hkeys
  rw [hg] at hkeys2
  simp only [List.map_append, List.map_cons, List.nodup_append, List.nodup_cons] at hkeys2
  obtain ⟨hpre, ⟨hapost, hpost⟩, hdisj⟩ := hkeys2
  have hpre_ne : ∀ kv ∈ pre, kv.1 ≠ a := by
    intro kv hm he
    exact hdisj (List.mem_map_of_mem Prod.fst hm)
      (by rw [he]; exact List.mem_cons_self _ _)
  have hpost_ne : ∀ kv ∈ post, kv.1 ≠ a := by
    intro kv hm he
    exact hapost (he ▸ List.mem_map_of_mem Prod.fst hm)
  -- unfold the pass into the three phases
  have hpass : CnfConverter.unitPass g
      = post.foldl (fun acc kv => kv.2.foldl (CnfConverter.unitStepRule g kv.1) acc)
          (rulesA.foldl (CnfConverter.unitStepRule g a)
            (pre.foldl (fun acc kv => kv.2.foldl (CnfConverter.unitStepRule g kv.1) acc)
              (g, false))) := by
    conv_lhs => rw [CnfConverter.unitPass, hg, List.foldl_append, List.foldl_cons]
    rw [← hg]
  obtain ⟨pne, pk, _⟩ := unitPass_outer_ne g a pre (g, false) hpre_ne
  set acc1 := pre.foldl (fun acc kv => kv.2.foldl (CnfConverter.unitStepRule g kv.1) acc)
      (g, false) with hacc1
  have hsome1 : (acc1.1.lookup a).isSome = true := by
    rw [lookup_isSome_iff_mem_keys, pk, ← lookup_isSome_iff_mem_keys]
    exact hsome
  have hcnt1 : (lookupD acc1.1 a).count [b] = rulesA.count [b] := by
    rw [pne, hlookD]
  obtain ⟨msome, mcnt, _, mcopy, mflag⟩ :=
    unitFold_self g a b hb hba rulesA acc1 hsome1
  set acc2 := rulesA.foldl (CnfConverter.unitStepRule g a) acc1 with hacc2
  have hposcount : 1 ≤ rulesA.count [b] := List.count_pos_iff.mpr hunit
  obtain ⟨qne, qk, qflag⟩ := unitPass_outer_ne g a post acc2 hpost_ne
  refine ⟨?_, ?_, ?_⟩
  · intro rB hrm hru
    rw [hpass, qne]
    exact mcopy hposcount rB hrm hru
  · rw [hpass, qne]
    intro hm
    have := List.count_pos_iff.mpr hm
    rw [mcnt, hcnt1] at this
    omega
  · rw [hpass]
    exact qflag (mflag hposcount (by rw [hcnt1]))

/-- Witness for the amended C5 on the grammar A -> B, B -> b: the
pure-terminal rule of B is copied into A, the unit rule removed, and the
pass flags a change. -/
theorem c5_unit_pass_amended_witness :
    (∀ rB ∈ lookupD [("A", [["B"]]), ("B", [["b"]])] "B", CnfConverter.is_unit rB = false →
        rB ∈ lookupD (CnfConverter.unitPass [("A", [["B"]]), ("B", [["b"]])]).1 "A")
    ∧ (["B"] : Rule) ∉ lookupD (CnfConverter.unitPass [("A", [["B"]]), ("B", [["b"]])]).1 "A"
    ∧ (CnfConverter.unitPass [("A", [["B"]]), ("B", [["b"]])]).2 = true := by
  have h := c5_unit_pass_amended [("A", [["B"]]), ("B", [["b"]])] (by decide) "A" "B"
    [["B"]] (by decide) (by decide) (by decide) (by decide)
  exact h

open Cyk

/-- A list has a satisfying element exactly when its filtrate is
nonempty. -/
theorem any_iff_filter_ne_nil {α : Type} (p : α → Bool) (l : List α) :
    l.any p = true ↔ l.filter p ≠ [] := by
  rw [List.any_eq_true]
  constructor
  · rintro ⟨x, hx, hp⟩ he
    have : x ∈ l.filter p := List.mem_filter.mpr ⟨hx, hp⟩
    rw [he] at this
    cases this
  · intro hne
    rcases hf : l.filter p with _ | ⟨x, t⟩
    · exact absurd hf hne
    · have : x ∈ l.filter p := by rw [hf]; exact List.mem_cons_self x t
      exact ⟨x, (List.mem_filter.mp this).1, (List.mem_filter.mp this).2⟩

/-- The combination body in terms of its candidate: append the candidate
entry unless the variable is already present. -/
theorem combStepRule_eq (k : Nat) (lc rc : List Entry) (key : String)
    (acc : List Entry) (rule : Rule) :
    combStepRule k lc rc key acc rule
      = match candOfRule k lc rc key rule with
        | none => acc
        | some e => if acc.any (fun e2 => e2.var == key) then acc else acc ++ [e] := by
  rcases rule with _ | ⟨b, _ | ⟨c, _ | ⟨d, t⟩⟩⟩
  · rfl
  · rfl
  · simp only [combStepRule, candOfRule]
    cases hl : lc.filter (fun e => e.var == b) with
    | nil => rfl
    | cons bE bt =>
      cases hr : rc.filter (fun e => e.var == c) with
      | nil => rfl
      | cons cE ct => rfl
  · rfl

/-- A candidate entry recognizes the variable it was built for. -/
theorem candOfRule_var (k : Nat) (lc rc : List Entry) (key : String) (rule : Rule)
    (e : Entry) (h : candOfRule k lc rc key rule = some e) : e.var = key := by
  rcases rule with _ | ⟨b, _ | ⟨c, _ | ⟨d, t⟩⟩⟩ <;> simp only [candOfRule] at h
  · cases h
  · cases h
  · cases hl : lc.filter (fun e => e.var == b) with
    | nil => rw [hl] at h; cases h
    | cons bE bt =>
      rw [hl] at h
      cases hr : rc.filter (fun e => e.var == c) with
      | nil => rw [hr] at h; cases h
      | cons cE ct =>
        rw [hr] at h
        cases h
        rfl
  · cases h

/-- The rule fold of the combination step extends the candidate lists of
the fold's variable with this rule batch, and the filtrate of the built
cell for every variable is the head of its accumulated candidate list. -/
theorem combFoldRules_inv (k : Nat) (lc rc : List Entry) (key : String) :
    ∀ (rules : List Rule) (acc : List Entry) (cand : String → List Entry),
      (∀ a, acc.filter (fun e => e.var == a) = (cand a).take 1) →
      ∀ a, (rules.foldl (combStepRule k lc rc key) acc).filter (fun e => e.var == a)
        = ((cand a) ++ (if a == key then rules.filterMap (candOfRule k lc rc key) else [])).take 1 := by
  intro rules
  induction rules with
  | nil =>
    intro acc cand hinv a
    rw [List.foldl_nil, List.filterMap_nil, hinv a]
    by_cases h : (a == key) = true <;> simp [h]
  | cons r rest ih =>
    intro acc cand hinv a
    rw [List.foldl_cons, combStepRule_eq]
    cases hc : candOfRule k lc rc key r with
    | none =>
      have := ih acc cand hinv a
      rw [this, List.filterMap_cons, hc]
    | some e =>
      dsimp only
      have hev : e.var = key := candOfRule_var k lc rc key r e hc
      by_cases hany : (acc.any (fun e2 => e2.var == key)) = true
      · -- key already present: the candidate is enumerated but not recorded
        rw [if_pos hany]
        have hck : cand key ≠ [] := by
          have h2 := (any_iff_filter_ne_nil (fun e2 => e2.var == key) acc).mp hany
          rw [hinv key] at h2
          intro he
          rw [he] at h2
          exact h2 rfl
        have hinv2 : ∀ a2, acc.filter (fun e2 => e2.var == a2)
            = ((fun a2 => cand a2 ++ if a2 == key then [e] else []) a2).take 1 := by
          intro a2
          by_cases ha2 : (a2 == key) = true
          · have ha2e : a2 = key := eq_of_beq ha2
            rw [hinv a2, ha2e]
            simp only [beq_self_eq_true, if_true]
            rcases hck2 : cand key with _ | ⟨c0, ct⟩
            · exact absurd hck2 hck
            · rfl
          · have hf2 : (a2 == key) = false := by simpa using ha2
            rw [hinv a2]
            simp only [hf2, Bool.false_eq_true, if_false, List.append_nil]
        have := ih acc _ hinv2 a
        rw [this]
        by_cases ha : (a == key) = true
        · simp only [ha, if_true, List.filterMap_cons, hc, List.append_assoc,
            List.singleton_append]
        · have hf : (a == key) = false := by simpa using ha
          simp only [hf, Bool.false_eq_true, if_false, List.append_nil]
      · -- key absent so far: the candidate becomes its recorded entry
        rw [if_neg hany]
        have hck : cand key = [] := by
          have h2 := (any_iff_filter_ne_nil (fun e2 => e2.var == key) acc).not.mp hany
          rw [hinv key] at h2
          rcases hck2 : cand key with _ | ⟨c0, ct⟩
          · rfl
          · rw [hck2] at h2
            simp at h2
        have hinv2 : ∀ a2, (acc ++ [e]).filter (fun e2 => e2.var == a2)
            = ((fun a2 => cand a2 ++ if a2 == key then [e] else []) a2).take 1 := by
          intro a2
          rw [List.filter_append]
          by_cases ha2 : (a2 == key) = true
          · have ha2e : a2 = key := eq_of_beq ha2
            have hfe : ([e] : List Entry).filter (fun e2 => e2.var == a2) = [e] := by
              have : (e.var == a2) = true := by rw [hev, ha2e]; simp
              simp [List.filter, this]
            rw [hinv a2, hfe, ha2e, hck]
            simp [hck]
          · have hfe : ([e] : List Entry).filter (fun e2 => e2.var == a2) = [] := by
              have : (e.var == a2) = false := by
                rw [hev, beq_swap]
                simpa using ha2
              simp [List.filter, this]
            have hf2 : (a2 == key) = false := by simpa using ha2
            rw [hfe, List.append_nil, hinv a2]
            simp only [hf2, Bool.false_eq_true, if_false, List.append_nil]
        have := ih (acc ++ [e]) _ hinv2 a
        rw [this]
        by_cases ha : (a == key) = true
        · simp only [ha, if_true, List.filterMap_cons, hc, List.append_assoc,
            List.singleton_append]
        · have hf : (a == key) = false := by simpa using ha
          simp only [hf, Bool.false_eq_true, if_false, List.append_nil]

/-- The grammar fold of the combination step at one split extends every
variable's candidate list with the batches of its own pairs, in grammar
order. -/
theorem combFoldPairs_inv (k : Nat) (lc rc : List Entry) :
    ∀ (l : List (String × List Rule)) (acc : List Entry) (cand : String → List Entry),
      (∀ a, acc.filter (fun e => e.var == a) = (cand a).take 1) →
      ∀ a, ((l.foldl (fun acc kv => kv.2.foldl (combStepRule k lc rc kv.1) acc) acc).filter
          (fun e => e.var == a))
        = ((cand a) ++ l.flatMap (fun kv =>
            if a == kv.1 then kv.2.filterMap (candOfRule k lc rc kv.1) else [])).take 1 := by
  intro l
  induction l with
  | nil =>
    intro acc cand hinv a
    rw [List.foldl_nil, List.flatMap_nil, List.append_nil, hinv a]
  | cons kv rest ih =>
    intro acc cand hinv a
    rw [List.foldl_cons]
    have hstep := combFoldRules_inv k lc rc kv.1 kv.2 acc cand hinv
    have := ih (kv.2.foldl (combStepRule k lc rc kv.1) acc)
      (fun a2 => cand a2 ++ if a2 == kv.1 then kv.2.filterMap (candOfRule k lc rc kv.1) else [])
      hstep a
    rw [this, List.flatMap_cons, ← List.append_assoc]

/-- A variable absent from the keys receives no candidate batch. -/
theorem flatMap_batch_nil (k : Nat) (lc rc : List Entry) (a : String) :
    ∀ (l : List (String × List Rule)), a ∉ l.map Prod.fst →
      l.flatMap (fun kv =>
        if a == kv.1 then kv.2.filterMap (candOfRule k lc rc kv.1) else []) = [] := by
  intro l
  induction l with
  | nil => intro _; rfl
  | cons kv rest ih =>
    intro hnm
    simp only [List.map_cons, List.mem_cons] at hnm
    rw [List.flatMap_cons]
    have : (a == kv.1) = false := beq_eq_false_iff_ne.mpr (fun he => hnm (Or.inl he))
    rw [this]
    simp only [Bool.false_eq_true, if_false, List.nil_append]
    exact ih (fun hm => hnm (Or.inr hm))

/-- With unique keys, the candidate batch a variable receives from the
grammar pairs is the batch of its own rule list. -/
theorem flatMap_batch_eq_lookupD (k : Nat) (lc rc : List Entry) :
    ∀ (cnf : List (String × List Rule)), ((cnf.map Prod.fst).Nodup) → ∀ (a : String),
      cnf.flatMap (fun kv => if a == kv.1 then kv.2.filterMap (candOfRule k lc rc kv.1) else [])
        = (lookupD cnf a).filterMap (candOfRule k lc rc a) := by
  intro cnf
  induction cnf with
  | nil => intro _ a; simp [lookupD, List.lookup]
  | cons kv rest ih =>
    intro hkeys a
    simp only [List.map_cons, List.nodup_cons] at hkeys
    obtain ⟨k1, v1⟩ := kv
    rw [List.flatMap_cons, lookupD_cons]
    by_cases ha : (a == k1) = true
    · have hae : a = k1 := eq_of_beq ha
      rw [if_pos ha, if_pos ha]
      rw [flatMap_batch_nil k lc rc a rest (hae ▸ hkeys.1), List.append_nil, hae]
    · rw [if_neg ha, if_neg ha, List.nil_append]
      exact ih hkeys.2 a

/-- An empty sub-cell contributes no candidate. -/
theorem candOfRule_empty (k : Nat) (lc rc : List Entry) (key : String) (rule : Rule)
    (h : lc.isEmpty = true ∨ rc.isEmpty = true) :
    candOfRule k lc rc key rule = none := by
  rcases rule with _ | ⟨b, _ | ⟨c, _ | ⟨d, t⟩⟩⟩ <;> simp only [candOfRule]
  rcases h with h | h
  · have : lc = [] := by rwa [List.isEmpty_iff] at h
    subst this
    rfl
  · have : rc = [] := by rwa [List.isEmpty_iff] at h
    subst this
    cases hl : lc.filter (fun e => e.var == b) with
    | nil => rfl
    | cons bE bt => rfl

/-- The split fold of the combination step accumulates, per variable, the
candidate batches of the split points in order. -/
theorem combFoldKs_inv (cnf : Grammar) (hkeys : (cnf.map Prod.fst).Nodup)
    (cells : Nat → Nat → List Entry) (i j : Nat) :
    ∀ (ks : List Nat) (acc : List Entry) (cand : String → List Entry),
      (∀ a, acc.filter (fun e => e.var == a) = (cand a).take 1) →
      ∀ a, ((ks.foldl (fun acc k =>
            let leftCell := cells i k
            let rightCell := cells (k + 1) j
            if leftCell.isEmpty || rightCell.isEmpty then acc
            else cnf.foldl (fun acc kv => kv.2.foldl (combStepRule k leftCell rightCell kv.1) acc)
              acc) acc).filter (fun e => e.var == a))
        = ((cand a) ++ ks.flatMap (fun k =>
            (lookupD cnf a).filterMap (candOfRule k (cells i k) (cells (k + 1) j) a))).take 1 := by
  intro ks
  induction ks with
  | nil =>
    intro acc cand hinv a
    rw [List.foldl_nil, List.flatMap_nil, List.append_nil, hinv a]
  | cons k ks ih =>
    intro acc cand hinv a
    rw [List.foldl_cons, List.flatMap_cons]
    by_cases hemp : ((cells i k).isEmpty || (cells (k + 1) j).isEmpty) = true
    · have hbatch : (lookupD cnf a).filterMap
          (candOfRule k (cells i k) (cells (k + 1) j) a) = [] := by
        apply List.filterMap_eq_nil_iff.mpr
        intro r _
        exact candOfRule_empty k _ _ a r (Bool.or_eq_true_iff.mp hemp)
      have hred : (let leftCell := cells i k
          let rightCell := cells (k + 1) j
          if leftCell.isEmpty || rightCell.isEmpty then acc
          else cnf.foldl (fun acc kv => kv.2.foldl (combStepRule k leftCell rightCell kv.1) acc)
            acc) = acc := by
        dsimp only
        rw [if_pos hemp]
      rw [hred, hbatch, List.nil_append]
      exact ih acc cand hinv a
    · have hred : (let leftCell := cells i k
          let rightCell := cells (k + 1) j
          if leftCell.isEmpty || rightCell.isEmpty then acc
          else cnf.foldl (fun acc kv => kv.2.foldl (combStepRule k leftCell rightCell kv.1) acc)
            acc)
          = cnf.foldl (fun acc kv =>
              kv.2.foldl (combStepRule k (cells i k) (cells (k + 1) j) kv.1) acc) acc := by
        dsimp only
        rw [if_neg hemp]
      rw [hred]
      have hstep2 : ∀ a2, ((cnf.foldl (fun acc kv =>
            kv.2.foldl (combStepRule k (cells i k) (cells (k + 1) j) kv.1) acc) acc).filter
            (fun e => e.var == a2))
          = ((fun a2 => cand a2 ++ (lookupD cnf a2).filterMap
              (candOfRule k (cells i k) (cells (k + 1) j) a2)) a2).take 1 := by
        intro a2
        rw [combFoldPairs_inv k (cells i k) (cells (k + 1) j) cnf acc cand hinv a2,
          flatMap_batch_eq_lookupD k (cells i k) (cells (k + 1) j) cnf hkeys a2]
      have := ih _ _ hstep2 a
      rw [this, ← List.append_assoc]

/-- The per-variable filtrate of a combination cell is the head of its
ordered candidate list. -/
theorem combineCell_filter (cnf : Grammar) (hkeys : (cnf.map Prod.fst).Nodup)
    (cells : Nat → Nat → List Entry) (i j : Nat) (a : String) :
    (combineCell cnf cells i j).filter (fun e => e.var == a)
      = (candidatesFor cnf cells i j a).take 1 := by
  have := combFoldKs_inv cnf hkeys cells i j (List.range' i (j - i)) []
    (fun _ => []) (fun _ => rfl) a
  rw [combineCell, candidatesFor]
  rw [this]
  rfl

/-- One unfolding of the cell function. -/
theorem cellGo_unfold (cnf : Grammar) (tokens : List String) (fuel i j : Nat) :
    cellGo cnf tokens fuel i j
      = if i == j then diagCell cnf tokens i
        else if j < i then []
        else match fuel with
          | 0 => []
          | fuel + 1 => combineCell cnf (fun a b => cellGo cnf tokens fuel a b) i j := by
  cases fuel with
  | zero => rfl
  | succ f => rfl

/-- The cell function is independent of its fuel above the span length. -/
theorem cellGo_mono (cnf : Grammar) (tokens : List String) :
    ∀ (fuel fuel' i j : Nat), j - i ≤ fuel → fuel ≤ fuel' →
      cellGo cnf tokens fuel i j = cellGo cnf tokens fuel' i j := by
  intro fuel
  induction fuel with
  | zero =>
    intro fuel' i j hspan _
    by_cases hij : (i == j) = true
    · rw [cellGo_unfold, cellGo_unfold, if_pos hij, if_pos hij]
    · have hji : j < i := by
        rcases Nat.lt_or_ge j i with h | h
        · exact h
        · exact absurd (beq_iff_eq.mpr (by omega)) hij
      rw [cellGo_unfold, cellGo_unfold, if_neg hij, if_neg hij, if_pos hji, if_pos hji]
  | succ f ihf =>
    intro fuel' i j hspan hle
    by_cases hij : (i == j) = true
    · rw [cellGo_unfold, cellGo_unfold, if_pos hij, if_pos hij]
    · by_cases hji : j < i
      · rw [cellGo_unfold, cellGo_unfold, if_neg hij, if_neg hij, if_pos hji, if_pos hji]
      · have hlt : i < j := by
          rcases Nat.lt_trichotomy i j with h | h | h
          · exact h
          · exact absurd (beq_iff_eq.mpr h) hij
          · exact absurd h hji
        rcases fuel' with _ | f'
        · omega
        · rw [cellGo_unfold, cellGo_unfold, if_neg hij, if_neg hij, if_neg hji, if_neg hji]
          show combineCell cnf (fun a b => cellGo cnf tokens f a b) i j
            = combineCell cnf (fun a b => cellGo cnf tokens f' a b) i j
          unfold combineCell
          apply List.foldl_ext
          intro acc k hk
          have hkb : i ≤ k ∧ k < j := by
            have := List.mem_range'_1.mp hk
            omega
          have h1 : cellGo cnf tokens f i k = cellGo cnf tokens f' i k := by
            apply ihf <;> omega
          have h2 : cellGo cnf tokens f (k + 1) j = cellGo cnf tokens f' (k + 1) j := by
            apply ihf <;> omega
          dsimp only
          rw [h1, h2]

/-- A combination cell of the finished table reads its sub-cells from the
finished table. -/
theorem cellAt_eq_combine (cnf : Grammar) (tokens : List String) (i j : Nat)
    (hij : i < j) :
    cellAt cnf tokens i j = combineCell cnf (cellAt cnf tokens) i j := by
  have hne : (i == j) = false := beq_eq_false_iff_ne.mpr (by omega)
  obtain ⟨d, hd⟩ : ∃ d, j - i = d + 1 := ⟨j - i - 1, by omega⟩
  rw [cellAt, hd, cellGo_unfold, if_neg (by simp [hne]), if_neg (by omega)]
  show combineCell cnf (fun a b => cellGo cnf tokens d a b) i j
    = combineCell cnf (cellAt cnf tokens) i j
  unfold combineCell
  apply List.foldl_ext
  intro acc k hk
  have hkb : i ≤ k ∧ k < j := by
    have := List.mem_range'_1.mp hk
    omega
  have h1 : cellGo cnf tokens d i k = cellAt cnf tokens i k := by
    rw [cellAt]
    exact (cellGo_mono cnf tokens (k - i) d i k (Nat.le_refl _) (by omega)).symm
  have h2 : cellGo cnf tokens d (k + 1) j = cellAt cnf tokens (k + 1) j := by
    rw [cellAt]
    exact (cellGo_mono cnf tokens (j - (k + 1)) d (k + 1) j (Nat.le_refl _) (by omega)).symm
  dsimp only
  rw [h1, h2]

/-- The diagonal rule fold adds one entry per unary rule for the token,
all recognizing the fold's variable. -/
theorem diagRules_filter (key tok a : String) :
    ∀ (rules : List Rule) (cell : List Entry),
      (((rules.foldl (diagStepRule key tok) cell).filter (fun e => e.var == a)).length)
        = ((cell.filter (fun e => e.var == a)).length
            + (if key == a then rules.count [tok] else 0)) := by
  intro rules
  induction rules with
  | nil =>
    intro cell
    by_cases h : (key == a) = true <;> simp [h]
  | cons r rest ih =>
    intro cell
    rw [List.foldl_cons, List.count_cons, ih]
    rcases r with _ | ⟨t, _ | ⟨u, v⟩⟩
    · have : (([] : Rule) == [tok]) = false := by simp
      rw [this]
      simp [diagStepRule]
    · simp only [diagStepRule]
      by_cases ht : (t == tok) = true
      · have htr : (([t] : Rule) == [tok]) = true := by
          simp [eq_of_beq ht]
        rw [if_pos ht, htr, List.filter_append]
        by_cases hka : (key == a) = true
        · have : (([Entry.term key tok] : List Entry).filter (fun e => e.var == a))
              = [Entry.term key tok] := by
            simp [List.filter, Entry.var, hka]
          rw [List.length_append, this]
          simp [hka]
          omega
        · have hkaf : (key == a) = false := by simpa using hka
          have : (([Entry.term key tok] : List Entry).filter (fun e => e.var == a)) = [] := by
            simp [List.filter, Entry.var, hkaf]
          rw [List.length_append, this]
          simp [hkaf]
      · have htf : (t == tok) = false := by simpa using ht
        have htr : (([t] : Rule) == [tok]) = false := by
          simp
          intro he
          rw [he] at htf
          simp at htf
        rw [htr]
        simp only [Bool.false_eq_true, if_false, htf, Nat.add_zero]
    · have : ((t :: u :: v : Rule) == [tok]) = false := by simp
      rw [this]
      simp [diagStepRule]

/-- The diagonal grammar fold: the per-variable entry count is the sum of
the unary-rule matches of that variable's pairs. -/
theorem diagPairs_filter (tok a : String) :
    ∀ (l : List (String × List Rule)) (cell : List Entry),
      (((l.foldl (fun cell kv => kv.2.foldl (diagStepRule kv.1 tok) cell) cell).filter
          (fun e => e.var == a)).length)
        = ((cell.filter (fun e => e.var == a)).length
            + ((l.map (fun kv => if kv.1 == a then kv.2.count [tok] else 0)).sum)) := by
  intro l
  induction l with
  | nil => intro cell; simp
  | cons kv rest ih =>
    intro cell
    rw [List.foldl_cons, List.map_cons, List.sum_cons, ih, diagRules_filter]
    omega

/-- A variable absent from the keys contributes nothing to the diagonal
match sum. -/
theorem diag_sum_zero (tok a : String) :
    ∀ (l : List (String × List Rule)), a ∉ l.map Prod.fst →
      (l.map (fun kv => if kv.1 == a then kv.2.count ([tok] : Rule) else 0)).sum = 0 := by
  intro l
  induction l with
  | nil => intro _; rfl
  | cons kv rest ih =>
    intro hnm
    simp only [List.map_cons, List.mem_cons] at hnm
    rw [List.map_cons, List.sum_cons]
    have : (kv.1 == a) = false := beq_eq_false_iff_ne.mpr (fun he => hnm (Or.inl he.symm))
    rw [this]
    simp only [Bool.false_eq_true, if_false, Nat.zero_add]
    exact ih (fun hm => hnm (Or.inr hm))

/-- A duplicate-free list counts any value at most once. -/
theorem count_le_one_of_nodup {l : List Rule} (h : l.Nodup) (r : Rule) : l.count r ≤ 1 := by
  induction l with
  | nil => simp
  | cons x t ih =>
    rw [List.count_cons]
    simp only [List.nodup_cons] at h
    by_cases hx : (x == r) = true
    · have hxe : x = r := eq_of_beq hx
      have : t.count r = 0 := List.count_eq_zero.mpr (hxe ▸ h.1)
      rw [this, hx]
      simp
    · have hxf : (x == r) = false := by simpa using hx
      rw [hxf]
      have := ih h.2
      simp only [Bool.false_eq_true, if_false, Nat.add_zero]
      exact this

/-- With unique keys and duplicate-free rule lists, the diagonal match sum
of a variable is at most one. -/
theorem diag_sum_le (tok a : String) :
    ∀ (l : List (String × List Rule)), ((l.map Prod.fst).Nodup) →
      (∀ kv ∈ l, kv.2.Nodup) →
      (l.map (fun kv => if kv.1 == a then kv.2.count ([tok] : Rule) else 0)).sum ≤ 1 := by
  intro l
  induction l with
  | nil => intro _ _; simp
  | cons kv rest ih =>
    intro hkeys hrules
    simp only [List.map_cons, List.nodup_cons] at hkeys
    rw [List.map_cons, List.sum_cons]
    by_cases ha : (kv.1 == a) = true
    · have hae : kv.1 = a := eq_of_beq ha
      rw [if_pos ha]
      have h1 : kv.2.count ([tok] : Rule) ≤ 1 :=
        count_le_one_of_nodup (hrules kv (List.mem_cons_self kv rest)) [tok]
      have h0 : (rest.map (fun kv2 =>
          if kv2.1 == a then kv2.2.count ([tok] : Rule) else 0)).sum = 0 :=
        diag_sum_zero tok a rest (hae ▸ hkeys.1)
      omega
    · rw [if_neg ha]
      have := ih hkeys.2 (fun kv2 hm => hrules kv2 (List.mem_cons_of_mem kv hm))
      omega

/-- With unique keys and duplicate-free rule lists, a diagonal cell holds
at most one entry per variable. -/
theorem diagCell_filter_le (cnf : Grammar) (tokens : List String) (i : Nat)
    (hkeys : (cnf.map Prod.fst).Nodup) (hrules : ∀ kv ∈ cnf, kv.2.Nodup) (a : String) :
    ((diagCell cnf tokens i).filter (fun e => e.var == a)).length ≤ 1 := by
  rw [diagCell]
  rw [diagPairs_filter (tokens.getD i "") a cnf []]
  simp only [List.filter_nil, List.length_nil, Nat.zero_add]
  exact diag_sum_le (tokens.getD i "") a cnf hkeys hrules

/-- C7: single-parse tie-break policy of the recognizer.  Under the
grammar invariants (unique variable keys, duplicate-free rule lists),
every cell of the CYK table holds at most one evidence entry per variable,
and for a combination cell that entry is exactly the head of the ordered
candidate list enumerating split points from i upward and, within a split,
the variable's rules in grammar declaration order — so an ambiguous
grammar keeps the candidate with the lowest split index and, among those,
the earliest-declared matching rule, built from the first matching entries
of the two sub-cells. -/
theorem c7_single_parse_policy (cnf : Grammar) (tokens : List String)
    (hkeys : (cnf.map Prod.fst).Nodup) (hrules : ∀ kv ∈ cnf, kv.2.Nodup) :
    (∀ i j a, ((Cyk.cellAt cnf tokens i j).filter (fun e => e.var == a)).length ≤ 1)
    ∧ (∀ i j a, i < j →
        (Cyk.cellAt cnf tokens i j).filter (fun e => e.var == a)
          = (Cyk.candidatesFor cnf (Cyk.cellAt cnf tokens) i j a).take 1) := by
  have hpart2 : ∀ i j a, i < j →
      (Cyk.cellAt cnf tokens i j).filter (fun e => e.var == a)
        = (Cyk.candidatesFor cnf (Cyk.cellAt cnf tokens) i j a).take 1 := by
    intro i j a hij
    rw [cellAt_eq_combine cnf tokens i j hij]
    exact combineCell_filter cnf hkeys (Cyk.cellAt cnf tokens) i j a
  refine ⟨?_, hpart2⟩
  intro i j a
  rcases Nat.lt_trichotomy i j with hij | hij | hij
  · rw [hpart2 i j a hij, List.length_take]
    omega
  · subst hij
    have : Cyk.cellAt cnf tokens i i = diagCell cnf tokens i := by
      rw [cellAt, cellGo_unfold]
      simp
    rw [this]
    exact diagCell_filter_le cnf tokens i hkeys hrules a
  · have : Cyk.cellAt cnf tokens i j = [] := by
      rw [cellAt, cellGo_unfold, if_neg (by simp; omega), if_pos hij]
    rw [this]
    simp

/-- Witness for C7 on the grammar S -> A B, A -> a, B -> b with input
tokens a b, at the top cell and variable S. -/
theorem c7_single_parse_policy_witness :
    ((Cyk.cellAt [("S", [["A", "B"]]), ("A", [["a"]]), ("B", [["b"]])] ["a", "b"] 0 1).filter
        (fun e => e.var == "S")).length ≤ 1
    ∧ (Cyk.cellAt [("S", [["A", "B"]]), ("A", [["a"]]), ("B", [["b"]])] ["a", "b"] 0 1).filter
        (fun e => e.var == "S")
      = (Cyk.candidatesFor [("S", [["A", "B"]]), ("A", [["a"]]), ("B", [["b"]])]
          (Cyk.cellAt [("S", [["A", "B"]]), ("A", [["a"]]), ("B", [["b"]])] ["a", "b"])
          0 1 "S").take 1 :=
  ⟨(c7_single_parse_policy [("S", [["A", "B"]]), ("A", [["a"]]), ("B", [["b"]])] ["a", "b"]
      (by decide) (by decide)).1 0 1 "S",
   (c7_single_parse_policy [("S", [["A", "B"]]), ("A", [["a"]]), ("B", [["b"]])] ["a", "b"]
      (by decide) (by decide)).2 0 1 "S" (by decide)⟩

open TreeBuilder

/-- A quoted terminal leaf label never starts with the letter X. -/
theorem startsWithX_quote (t : String) : startsWithX (quote t) = false := by
  have hd : (quote t).data = dquote :: (t.data ++ [dquote]) := by
    rw [quote, String.data_append, String.data_append]
    rfl
  rw [startsWithX, hd]
  show (dquote == 'X') = false
  decide

/-- Leaf labels distribute over child-list concatenation. -/
theorem leafLabelsList_append (l1 l2 : List Cyk.PTree) :
    leafLabelsList (l1 ++ l2) = leafLabelsList l1 ++ leafLabelsList l2 := by
  induction l1 with
  | nil => rfl
  | cons c ct ih => rw [List.cons_append, leafLabelsList, leafLabelsList, ih, List.append_assoc]

/-- A node displaying children collects their leaves. -/
theorem leafLabels_mkNode (n : String) (cs : List Cyk.PTree) (h : cs ≠ []) :
    leafLabels (.mkNode n cs) = leafLabelsList cs := by
  cases cs with
  | nil => exact absurd rfl h
  | cons c ct => rfl

mutual

/-- `flatten_tree` keeps the leaf labels of a tree. -/
theorem leafLabels_flatten : ∀ t : Cyk.PTree, leafLabels (flatten_tree t) = leafLabels t
  | .mkLeaf _ => rfl
  | .mkNode n cs => by
    cases cs with
    | nil => rfl
    | cons c ct =>
      show leafLabels (.mkNode n (flattenList (c :: ct))) = leafLabels (.mkNode n (c :: ct))
      have hne : flattenList (c :: ct) ≠ [] := by
        rw [flattenList]
        exact List.cons_ne_nil _ _
      rw [leafLabels_mkNode n _ hne, leafLabels_mkNode n _ (List.cons_ne_nil c ct)]
      exact leafLabelsList_flattenList (c :: ct)

/-- `flattenList` keeps the leaf labels of a child list. -/
theorem leafLabelsList_flattenList : ∀ cs : List Cyk.PTree,
    leafLabelsList (flattenList cs) = leafLabelsList cs
  | [] => rfl
  | c :: ct => by
    rw [flattenList, leafLabelsList, leafLabelsList, leafLabels_flatten c,
      leafLabelsList_flattenList ct]

end

/-- A fold whose steps preserve an all-members property preserves it. -/
theorem foldl_all {α β : Type} (P : β → Prop) :
    ∀ (l : List α) (f : List β → α → List β) (acc : List β),
      (∀ acc2 x, x ∈ l → (∀ e ∈ acc2, P e) → ∀ e ∈ f acc2 x, P e) →
      (∀ e ∈ acc, P e) → ∀ e ∈ l.foldl f acc, P e := by
  intro l
  induction l with
  | nil => intro f acc _ hacc; exact hacc
  | cons x xs ih =>
    intro f acc hstep hacc
    rw [List.foldl_cons]
    exact ih f (f acc x) (fun acc2 y hy => hstep acc2 y (List.mem_cons_of_mem x hy))
      (hstep acc x (List.mem_cons_self x xs) hacc)

open Cyk in
/-- Entries of a diagonal cell carry the cell's token and stem from a
unary rule of their variable. -/
theorem diagCell_wf (cnf : Grammar) (tokens : List String) (i : Nat) :
    ∀ e ∈ diagCell cnf tokens i,
      ∃ a rs, e = Entry.term a (tokens.getD i "")
        ∧ (a, rs) ∈ cnf ∧ ([tokens.getD i ""] : Rule) ∈ rs := by
  rw [diagCell]
  apply foldl_all (fun e => ∃ a rs, e = Entry.term a (tokens.getD i "")
    ∧ (a, rs) ∈ cnf ∧ ([tokens.getD i ""] : Rule) ∈ rs) cnf _ []
  · intro acc kv hkv hacc
    apply foldl_all (fun e => ∃ a rs, e = Entry.term a (tokens.getD i "")
      ∧ (a, rs) ∈ cnf ∧ ([tokens.getD i ""] : Rule) ∈ rs) kv.2 _ acc
    · intro acc2 rule hrule hacc2 e he
      rcases rule with _ | ⟨t, _ | ⟨u, v⟩⟩
      · exact hacc2 e he
      · simp only [diagStepRule] at he
        by_cases ht : (t == tokens.getD i "") = true
        · rw [if_pos ht] at he
          rcases List.mem_append.mp he with hold | hnew
          · exact hacc2 e hold
          · rcases List.mem_singleton.mp hnew with he2
            refine ⟨kv.1, kv.2, he2, ?_, ?_⟩
            · have : (kv.1, kv.2) = kv := rfl
              rw [this]
              exact hkv
            · have : t = tokens.getD i "" := eq_of_beq ht
              rw [← this]
              exact hrule
        · rw [if_neg ht] at he
          exact hacc2 e he
      · exact hacc2 e he
    · exact hacc
  · intro e he
    cases he

open Cyk in
/-- A produced candidate is a split entry over members of the two
sub-cells. -/
theorem candOfRule_some_mem (k : Nat) (lc rc : List Entry) (key : String) (rule : Rule)
    (e : Entry) (h : candOfRule k lc rc key rule = some e) :
    ∃ bE cE, e = Entry.split key k bE cE ∧ bE ∈ lc ∧ cE ∈ rc := by
  rcases rule with _ | ⟨b, _ | ⟨c, _ | ⟨d, t⟩⟩⟩ <;> simp only [candOfRule] at h
  · cases h
  · cases h
  · cases hl : lc.filter (fun e2 => e2.var == b) with
    | nil => rw [hl] at h; cases h
    | cons bE bt =>
      rw [hl] at h
      cases hr : rc.filter (fun e2 => e2.var == c) with
      | nil => rw [hr] at h; cases h
      | cons cE ct =>
        rw [hr] at h
        cases h
        refine ⟨bE, cE, rfl, ?_, ?_⟩
        · have : bE ∈ lc.filter (fun e2 => e2.var == b) := by
            rw [hl]; exact List.mem_cons_self bE bt
          exact (List.mem_filter.mp this).1
        · have : cE ∈ rc.filter (fun e2 => e2.var == c) := by
            rw [hr]; exact List.mem_cons_self cE ct
          exact (List.mem_filter.mp this).1
  · cases h

open Cyk in
/-- Every entry of a finished CYK cell is well-formed for its span. -/
theorem cellAt_wf (cnf : Grammar) (tokens : List String) :
    ∀ (i j : Nat), ∀ e ∈ cellAt cnf tokens i j, EntryWF cnf tokens i j e := by
  intro i j
  rcases Nat.lt_trichotomy i j with hij | hij | hij
  · rw [cellAt_eq_combine cnf tokens i j hij, combineCell]
    apply foldl_all (EntryWF cnf tokens i j) (List.range' i (j - i)) _ []
    · intro acc k hk hacc
      have hkb : i ≤ k ∧ k < j := by
        have := List.mem_range'_1.mp hk
        omega
      dsimp only
      by_cases hemp : ((cellAt cnf tokens i k).isEmpty
          || (cellAt cnf tokens (k + 1) j).isEmpty) = true
      · rw [if_pos hemp]
        exact hacc
      · rw [if_neg hemp]
        apply foldl_all (EntryWF cnf tokens i j) cnf _ acc
        · intro acc2 kv _ hacc2
          apply foldl_all (EntryWF cnf tokens i j) kv.2 _ acc2
          · intro acc3 rule _ hacc3 e he
            rw [combStepRule_eq] at he
            cases hc : candOfRule k (cellAt cnf tokens i k) (cellAt cnf tokens (k + 1) j)
                kv.1 rule with
            | none => rw [hc] at he; exact hacc3 e he
            | some e2 =>
              rw [hc] at he
              dsimp only at he
              by_cases hany : (acc3.any (fun e3 => e3.var == kv.1)) = true
              · rw [if_pos hany] at he
                exact hacc3 e he
              · rw [if_neg hany] at he
                rcases List.mem_append.mp he with hold | hnew
                · exact hacc3 e hold
                · rcases List.mem_singleton.mp hnew with he2
                  obtain ⟨bE, cE, hsh, hbm, hcm⟩ := candOfRule_some_mem k _ _ kv.1 rule e2 hc
                  rw [he2, hsh]
                  exact ⟨hkb.1, hkb.2, hbm, hcm⟩
          · exact hacc2
        · exact hacc
    · intro e he
      cases he
  · subst hij
    have hdiag : cellAt cnf tokens i i = diagCell cnf tokens i := by
      rw [cellAt, cellGo_unfold]
      simp
    rw [hdiag]
    intro e he
    obtain ⟨a, rs, hsh, hpm, hrm⟩ := diagCell_wf cnf tokens i e he
    rw [hsh]
    exact ⟨rfl, rfl, rs, hpm, hrm⟩
  · have : cellAt cnf tokens i j = [] := by
      rw [cellAt, cellGo_unfold, if_neg (by simp; omega), if_pos hij]
    rw [this]
    intro e he
    cases he

open Cyk in
/-- A one-token span. -/
theorem spanToks_single (tokens : List String) (i : Nat) (h : i < tokens.length) :
    spanToks tokens i i = [tokens.getD i ""] := by
  rw [spanToks, Nat.sub_self, List.drop_eq_getElem_cons h]
  rw [List.getD_eq_getElem tokens "" h]
  rfl

open Cyk in
/-- Adjacent spans concatenate. -/
theorem spanToks_split (tokens : List String) (i k j : Nat) (h1 : i ≤ k) (h2 : k < j) :
    spanToks tokens i k ++ spanToks tokens (k + 1) j = spanToks tokens i j := by
  rw [spanToks, spanToks, spanToks]
  have hd : tokens.drop (k + 1) = (tokens.drop i).drop (k - i + 1) := by
    rw [List.drop_drop]
    congr 1
    omega
  have e2 : (k - i + 1) + (j - (k + 1) + 1) = j - i + 1 := by omega
  rw [hd, ← e2]
  conv_rhs => rw [List.take_add]

open Cyk in
/-- A span inside the token sequence is non-empty. -/
theorem spanToks_ne_nil (tokens : List String) (i j : Nat) (h1 : i ≤ j)
    (h2 : j < tokens.length) : spanToks tokens i j ≠ [] := by
  rw [spanToks]
  intro h
  have := congrArg List.length h
  rw [List.length_take, List.length_drop] at this
  simp only [List.length_nil] at this
  omega

open Cyk TreeBuilder in
/-- The contribution of one reconstructed child to the parent's leaf
sequence: whether spliced or appended intact, exactly its own leaves. -/
theorem appendChild_leaves (nm : List (String × String)) (ch : List PTree) (child : PTree)
    (spanL : List String)
    (hleaves : leafLabels child = spanL.map quote)
    (hshape : ∀ m, child = .mkLeaf m → startsWithX m = false) :
    leafLabelsList (appendChild nm ch child) = leafLabelsList ch ++ spanL.map quote := by
  rw [appendChild.eq_def]
  by_cases hcond : (startsWithX child.name && (nm.lookup child.name).isNone) = true
  · rw [if_pos hcond]
    cases child with
    | mkLeaf m =>
      have := hshape m rfl
      rw [PTree.name] at hcond
      rw [this] at hcond
      simp at hcond
    | mkNode n2 cs =>
      cases cs with
      | nil =>
        -- a childless node would make the node label a leaf label,
        -- but the condition says it starts with X while leaves are quoted
        exfalso
        rcases spanL with _ | ⟨t, _ | ⟨t2, ts⟩⟩
        · rw [leafLabels] at hleaves
          simp at hleaves
        · rw [leafLabels] at hleaves
          simp only [List.map_cons, List.map_nil] at hleaves
          have hn2 : n2 = quote t := by
            exact (List.cons.inj hleaves).1
          rw [PTree.name, hn2, startsWithX_quote] at hcond
          simp at hcond
        · rw [leafLabels] at hleaves
          have := congrArg List.length hleaves
          simp at this
      | cons c ct =>
        rw [leafLabels_mkNode n2 _ (List.cons_ne_nil c ct)] at hleaves
        rw [leafLabelsList_append, hleaves]
  · rw [if_neg hcond]
    rw [leafLabelsList_append, leafLabelsList, leafLabelsList, hleaves, List.append_nil]

open Cyk TreeBuilder in
/-- Reconstruction over a one-token span: the leaf sequence is the quoted
token, and a leaf result carries a quoted label. -/
theorem reconstruct_leaves_diag (cnf : Grammar) (tokens : List String)
    (nm : List (String × String))
    (hwrap : ∀ v t, nm.lookup v = some t → ∀ rs, (v, rs) ∈ cnf → ∀ r ∈ rs, r = [t])
    (fuel i : Nat) (a : String) (hi : i < tokens.length)
    (hpres : ∃ e ∈ cellAt cnf tokens i i, Entry.var e = a) :
    leafLabels (reconstruct_tree (cellAt cnf tokens) nm fuel i i a)
        = (spanToks tokens i i).map quote
    ∧ (∀ m, reconstruct_tree (cellAt cnf tokens) nm fuel i i a = .mkLeaf m →
        startsWithX m = false) := by
  obtain ⟨e0, he0, hv0⟩ := hpres
  have hne : (cellAt cnf tokens i i).filter (fun e => e.var == a) ≠ [] := by
    intro h
    have : e0 ∈ (cellAt cnf tokens i i).filter (fun e => e.var == a) :=
      List.mem_filter.mpr ⟨he0, beq_iff_eq.mpr hv0⟩
    rw [h] at this
    cases this
  rcases hfilter : (cellAt cnf tokens i i).filter (fun e => e.var == a) with _ | ⟨entry, rest⟩
  · exact absurd hfilter hne
  · have hentry : entry ∈ cellAt cnf tokens i i ∧ (entry.var == a) = true := by
      have : entry ∈ (cellAt cnf tokens i i).filter (fun e => e.var == a) := by
        rw [hfilter]
        exact List.mem_cons_self entry rest
      exact ⟨(List.mem_filter.mp this).1, (List.mem_filter.mp this).2⟩
    have hwf := cellAt_wf cnf tokens i i entry hentry.1
    cases entry with
    | term a2 tok =>
      have ha2 : a2 = a := by
        have := hentry.2
        rw [Entry.var] at this
        exact eq_of_beq this
      obtain ⟨-, htok, rs, hpm, hrm⟩ :=
        (hwf : i = i ∧ tok = tokens.getD i ""
          ∧ ∃ rs, (a2, rs) ∈ cnf ∧ ([tok] : Rule) ∈ rs)
      have hres : Cyk.reconstruct_tree (cellAt cnf tokens) nm fuel i i a
          = (match nm.lookup a2 with
             | some t => PTree.mkLeaf (quote t)
             | none => PTree.mkNode a2 [PTree.mkLeaf (quote tok)]) := by
        rw [Cyk.reconstruct_tree, hfilter]
      cases hlk : nm.lookup a2 with
      | some t =>
        have ht : t = tok := by
          have h2 := hwrap a2 t hlk rs hpm [tok] hrm
          exact (List.cons.inj h2).1.symm
        rw [hlk] at hres
        constructor
        · rw [hres, spanToks_single tokens i hi, ← htok, ht]
          rfl
        · intro m hm
          rw [hres] at hm
          cases hm
          exact startsWithX_quote t
      | none =>
        rw [hlk] at hres
        constructor
        · rw [hres, spanToks_single tokens i hi, ← htok]
          rfl
        · intro m hm
          rw [hres] at hm
          cases hm
    | split a2 k b c =>
      have hwf2 : i ≤ k ∧ k < i ∧ b ∈ cellAt cnf tokens i k
          ∧ c ∈ cellAt cnf tokens (k + 1) i := hwf
      omega

open Cyk TreeBuilder in
/-- Reconstruction over any span whose cell holds the requested variable
yields a tree whose leaves are exactly the quoted tokens of the span, and
whose root, when a leaf, never carries an X-name. -/
theorem reconstruct_leaves (cnf : Grammar) (tokens : List String)
    (nm : List (String × String))
    (hwrap : ∀ v t, nm.lookup v = some t → ∀ rs, (v, rs) ∈ cnf → ∀ r ∈ rs, r = [t]) :
    ∀ (L fuel i j : Nat) (a : String),
      j - i ≤ L → j - i ≤ fuel → i ≤ j → j < tokens.length →
      (∃ e ∈ cellAt cnf tokens i j, Entry.var e = a) →
      leafLabels (reconstruct_tree (cellAt cnf tokens) nm fuel i j a)
          = (spanToks tokens i j).map quote
      ∧ (∀ m, reconstruct_tree (cellAt cnf tokens) nm fuel i j a = .mkLeaf m →
          startsWithX m = false) := by
  intro L
  induction L with
  | zero =>
    intro fuel i j a hL hfuel hij hj hpres
    have heq : i = j := by omega
    subst heq
    exact reconstruct_leaves_diag cnf tokens nm hwrap fuel i a hj hpres
  | succ L ih =>
    intro fuel i j a hL hfuel hij hj hpres
    rcases Nat.eq_or_lt_of_le hij with heq | hlt
    · subst heq
      exact reconstruct_leaves_diag cnf tokens nm hwrap fuel i a hj hpres
    · obtain ⟨e0, he0, hv0⟩ := hpres
      have hne : (cellAt cnf tokens i j).filter (fun e => e.var == a) ≠ [] := by
        intro h
        have : e0 ∈ (cellAt cnf tokens i j).filter (fun e => e.var == a) :=
          List.mem_filter.mpr ⟨he0, beq_iff_eq.mpr hv0⟩
        rw [h] at this
        cases this
      rcases hfilter : (cellAt cnf tokens i j).filter (fun e => e.var == a)
        with _ | ⟨entry, rest⟩
      · exact absurd hfilter hne
      · have hentry : entry ∈ cellAt cnf tokens i j ∧ (entry.var == a) = true := by
          have : entry ∈ (cellAt cnf tokens i j).filter (fun e => e.var == a) := by
            rw [hfilter]
            exact List.mem_cons_self entry rest
          exact ⟨(List.mem_filter.mp this).1, (List.mem_filter.mp this).2⟩
        have hwf := cellAt_wf cnf tokens i j entry hentry.1
        cases entry with
        | term a2 tok =>
          have hwf2 : i = j ∧ tok = tokens.getD i ""
              ∧ ∃ rs, (a2, rs) ∈ cnf ∧ ([tok] : Rule) ∈ rs := hwf
          omega
        | split a2 k b c =>
          have hwf2 : i ≤ k ∧ k < j ∧ b ∈ cellAt cnf tokens i k
              ∧ c ∈ cellAt cnf tokens (k + 1) j := hwf
          obtain ⟨hik, hkj, hbm, hcm⟩ := hwf2
          obtain ⟨f, rfl⟩ : ∃ f, fuel = f + 1 := ⟨fuel - 1, by omega⟩
          have ihL := ih f i k b.var (by omega) (by omega) hik (by omega)
            ⟨b, hbm, rfl⟩
          have ihR := ih f (k + 1) j c.var (by omega) (by omega) (by omega) hj
            ⟨c, hcm, rfl⟩
          have hres : Cyk.reconstruct_tree (cellAt cnf tokens) nm (f + 1) i j a
              = .mkNode a2 (appendChild nm (appendChild nm []
                  (Cyk.reconstruct_tree (cellAt cnf tokens) nm f i k b.var))
                  (Cyk.reconstruct_tree (cellAt cnf tokens) nm f (k + 1) j c.var)) := by
            rw [Cyk.reconstruct_tree, hfilter]
          have hlist : leafLabelsList (appendChild nm (appendChild nm []
                  (Cyk.reconstruct_tree (cellAt cnf tokens) nm f i k b.var))
                  (Cyk.reconstruct_tree (cellAt cnf tokens) nm f (k + 1) j c.var))
              = (spanToks tokens i k ++ spanToks tokens (k + 1) j).map quote := by
            rw [appendChild_leaves nm _ _ (spanToks tokens (k + 1) j) ihR.1 ihR.2,
              appendChild_leaves nm [] _ (spanToks tokens i k) ihL.1 ihL.2,
              leafLabelsList, List.nil_append, List.map_append]
          have hchne : appendChild nm (appendChild nm []
                  (Cyk.reconstruct_tree (cellAt cnf tokens) nm f i k b.var))
                  (Cyk.reconstruct_tree (cellAt cnf tokens) nm f (k + 1) j c.var) ≠ [] := by
            intro h
            rw [h, leafLabelsList] at hlist
            have hsp := spanToks_ne_nil tokens i k hik (by omega)
            rcases hspc : spanToks tokens i k with _ | ⟨t, ts⟩
            · exact hsp hspc
            · rw [hspc] at hlist
              simp at hlist
          refine ⟨?_, ?_⟩
          · rw [hres, leafLabels_mkNode a2 _ hchne, hlist,
              spanToks_split tokens i k j hik hkj]
          · intro m hm
            rw [hres] at hm
            exact Cyk.PTree.noConfusion hm

open Cyk in
/-- Stripping the quote rendering recovers the terminal. -/
theorem unquote_quote (t : String) : unquote (quote t) = t := by
  rw [unquote, quote]
  have hd : (String.mk [dquote] ++ t ++ String.mk [dquote]).data
      = dquote :: (t.data ++ [dquote]) := by
    rw [String.data_append, String.data_append]
    rfl
  rw [hd]
  have h2 : (dquote :: (t.data ++ [dquote])).drop 1 = t.data ++ [dquote] := rfl
  rw [h2]
  have h3 : (t.data ++ [dquote]).dropLast = t.data := by simp
  rw [h3]

open Cyk in
/-- The full span covers the whole token sequence. -/
theorem spanToks_full (tokens : List String) (h : tokens ≠ []) :
    spanToks tokens 0 (tokens.length - 1) = tokens := by
  have hp : 0 < tokens.length := List.length_pos.mpr h
  rw [spanToks, List.drop_zero]
  have e1 : tokens.length - 1 - 0 + 1 = tokens.length := by omega
  rw [e1, List.take_length]

open Cyk TreeBuilder in
/-- C6: counterexample to the literal round-trip.  The claim says the leaf
labels of the reconstructed tree are exactly the input tokens; the code
renders every terminal leaf as the token wrapped in double quotes
(src/logic/cyk.py lines 138-141), so on the CNF grammar S -> a with input
token a the recogniser succeeds but the single leaf label is the quoted
token, not the token, and the space-joined labels differ from the input. -/
theorem c6_leaf_labels_are_quoted :
    run_cyk [("S", [["a"]])] "S" ["a"] = true
    ∧ leafLabels (flatten_tree (Cyk.reconstruct_tree
        (cellAt [("S", [["a"]])] ["a"]) [] 1 0 0 "S")) ≠ ["a"]
    ∧ String.intercalate " " (leafLabels (flatten_tree (Cyk.reconstruct_tree
        (cellAt [("S", [["a"]])] ["a"]) [] 1 0 0 "S"))) ≠ "a" := by
  refine ⟨by decide, by decide, by decide⟩

open Cyk TreeBuilder in
/-- C6 (amended): reconstruction round-trip up to the quote rendering.
Whenever `run_cyk` reports success on a CNF grammar whose
terminal-wrapper map is faithful (every mapped variable has exactly the
single rule producing its recorded terminal -- true of the maps built by
`convert_to_cnf`), the leaf labels of the reconstructed and flattened tree
over the full span are exactly the input tokens each wrapped in double
quotes, and stripping that wrapping from each label yields exactly the
input token sequence, so the space-joined unquoted labels reproduce the
input. -/
theorem c6_reconstruction_roundtrip (cnf : Grammar) (tokens : List String)
    (nm : List (String × String)) (startVar : String)
    (hwrap : ∀ v t, nm.lookup v = some t → ∀ rs, (v, rs) ∈ cnf → ∀ r ∈ rs, r = [t])
    (hrun : run_cyk cnf startVar tokens = true) :
    leafLabels (flatten_tree (Cyk.reconstruct_tree (cellAt cnf tokens) nm
        tokens.length 0 (tokens.length - 1) startVar)) = tokens.map quote
    ∧ (leafLabels (flatten_tree (Cyk.reconstruct_tree (cellAt cnf tokens) nm
        tokens.length 0 (tokens.length - 1) startVar))).map unquote = tokens := by
  rw [run_cyk] at hrun
  by_cases hlen : (tokens.length == 0) = true
  · rw [if_pos hlen] at hrun
    cases hrun
  · rw [if_neg hlen] at hrun
    have hn : 0 < tokens.length := by
      rcases Nat.eq_zero_or_pos tokens.length with h0 | h
      · rw [h0] at hlen
        simp at hlen
      · exact h
    obtain ⟨e, he, hv⟩ := List.any_eq_true.mp hrun
    have hpres : ∃ e2 ∈ cellAt cnf tokens 0 (tokens.length - 1),
        Entry.var e2 = startVar := ⟨e, he, eq_of_beq hv⟩
    have hmain := reconstruct_leaves cnf tokens nm hwrap tokens.length tokens.length
      0 (tokens.length - 1) startVar (by omega) (by omega) (by omega) (by omega) hpres
    have hnil : tokens ≠ [] := by
      intro h0
      rw [h0] at hn
      simp at hn
    have hspan : spanToks tokens 0 (tokens.length - 1) = tokens :=
      spanToks_full tokens hnil
    constructor
    · rw [leafLabels_flatten, hmain.1, hspan]
    · rw [leafLabels_flatten, hmain.1, hspan, List.map_map]
      have hcomp : unquote ∘ quote = id := funext unquote_quote
      rw [hcomp, List.map_id]

open Cyk TreeBuilder in
/-- Closed witness for the amended C6 round-trip on the CNF grammar
S -> A B, A -> a, B -> b with input tokens a b. -/
theorem c6_reconstruction_roundtrip_witness :
    leafLabels (flatten_tree (Cyk.reconstruct_tree
        (cellAt [("S", [["A", "B"]]), ("A", [["a"]]), ("B", [["b"]])] ["a", "b"]) []
        (["a", "b"] : List String).length 0 ((["a", "b"] : List String).length - 1) "S"))
      = (["a", "b"] : List String).map quote
    ∧ (leafLabels (flatten_tree (Cyk.reconstruct_tree
        (cellAt [("S", [["A", "B"]]), ("A", [["a"]]), ("B", [["b"]])] ["a", "b"]) []
        (["a", "b"] : List String).length 0
        ((["a", "b"] : List String).length - 1) "S"))).map unquote
      = ["a", "b"] :=
  c6_reconstruction_roundtrip [("S", [["A", "B"]]), ("A", [["a"]]), ("B", [["b"]])]
    ["a", "b"] [] "S" (fun v t h => nomatch h) (by decide)
